import Mathlib

/-!
# ChainSignals backend — portfolio replay and statistics engine, shallow embedding

This development embeds the core of the ChainSignals backend (segment-based
portfolio reconstruction and performance statistics) in Lean 4 and proves the
frozen specification claims about it.

Conventions of the embedding:
* JavaScript numbers are modelled as exact rationals (`ℚ`); the claims about
  the arithmetic therefore hold exactly where the source holds them up to
  floating point epsilon.  `Number.isFinite` guards are vacuously true in `ℚ`.
* JS objects used as string-keyed maps (`buckets`, `meta`) are modelled as
  association lists with unique keys; object mutation becomes functional
  update.
* The transcendental primitives `Math.log` and `Math.sqrt` used by the
  statistics aggregator are abstracted into a `NumOracle` parameter, so every
  statement about the control flow and the algebraic shape of the results is
  proved for an arbitrary realisation of those primitives.
* SQLite statements become operations on in-memory stores: `INSERT OR IGNORE`
  on `strategy_segments` inserts only when no row with the same
  `(start_ts, end_ts)` key exists; `ON CONFLICT DO UPDATE` upserts replace the
  row with the same key.
-/

namespace ChainSignals

/-- Asset symbols are plain strings, as in the source. -/
abbrev Sym := String

/-- `String.prototype.toUpperCase`, written over the character list so that it
evaluates by kernel reduction (`String.toUpper` is the same map). -/
def upper (s : Sym) : Sym := ⟨s.data.map Char.toUpper⟩

/-- `SUPPORTED_ASSETS` from `prices.ts` (keys of the CoinGecko id map). -/
def SUPPORTED_ASSETS : List Sym :=
  ["BTC", "ETH", "SOL", "XRP", "KAS", "GOLD", "SILVER", "SPX"]

/-- `isUsdAsset` from the segments engine: `asset.toUpperCase() === "USD"`. -/
def isUsdAsset (asset : Sym) : Bool := upper asset == "USD"

/-- `isSupportedAsset`: USD or a key of `SUPPORTED_ASSETS`. -/
def isSupportedAsset (asset : Sym) : Bool :=
  isUsdAsset (upper asset) || SUPPORTED_ASSETS.contains (upper asset)

/-- `clampPct`: `Math.max(0, Math.min(100, Math.floor(weightRaw))) / 100`
(non-finite input is irrelevant over `ℚ`). -/
def clampPct (weightRaw : ℚ) : ℚ :=
  max 0 (min 100 ((⌊weightRaw⌋ : ℚ))) / 100

/-- Per-asset return parameters, the `PosMeta` record of the engine. -/
structure PosMeta where
  direction : Int
  leverage : ℚ
  isUsd : Bool
deriving DecidableEq, Repr

/-- `buckets`: per-asset capital values, a JS object keyed by symbol. -/
abbrev Buckets := List (Sym × ℚ)

/-- `meta`: per-asset `PosMeta`, a JS object keyed by symbol. -/
abbrev Meta := List (Sym × PosMeta)

/-- Lookup in a string-keyed object (`obj[key]`); `none` models an absent key.
A JS object holds each key at most once, so only the first match matters. -/
def lookupKey {α : Type} : List (Sym × α) → Sym → Option α
  | [], _ => none
  | x :: xs, a => if x.1 = a then some x.2 else lookupKey xs a

/-- `buckets[asset] ?? 0`. -/
def lookupOr0 (b : Buckets) (a : Sym) : ℚ := (lookupKey b a).getD 0

/-- `obj[key] = v` on a JS object: overwrite in place if the key is present,
append at the end otherwise (JS insertion order). -/
def setKey {α : Type} : List (Sym × α) → Sym → α → List (Sym × α)
  | [], a, v => [(a, v)]
  | x :: xs, a, v => if x.1 = a then (a, v) :: xs else x :: setKey xs a v

/-- `delete obj[key]` on a JS object. -/
def eraseKey {α : Type} : List (Sym × α) → Sym → List (Sym × α)
  | [], _ => []
  | x :: xs, a => if x.1 = a then xs else x :: eraseKey xs a

/-- `sumBuckets`: sum of all bucket values. -/
def sumBuckets (b : Buckets) : ℚ := (b.map (·.2)).sum

/-- The in-place scaling loop `for a of keys: if a !== asset buckets[a] *= k`. -/
def scaleOthers (b : Buckets) (asset : Sym) (k : ℚ) : Buckets :=
  b.map (fun p => if p.1 = asset then p else (p.1, p.2 * k))

/-- The signal fields consumed by `applySignalTargetPct`. -/
structure SigParams where
  asset : Sym
  direction : Int
  leverage : ℚ
  weight_raw : ℚ
deriving Repr

/-- `hasNonUsdExposure`: some non-USD bucket has a strictly positive value. -/
def hasNonUsdExposure (b : Buckets) : Bool :=
  b.any (fun p => !isUsdAsset p.1 && decide (0 < p.2))

/-- `isBrandNewSeed`: exactly the seeded `{USD: 1.0}` cash bucket. -/
def isBrandNewSeed (b : Buckets) : Bool :=
  b.length == 1 && lookupOr0 b "USD" == 1 && !hasNonUsdExposure b

/-- Direction mapping used at replay time for a non-USD asset:
contract/stored value `1` means short (`-1`), anything else long (`+1`). -/
def replayDirection (direction : Int) : Int := if direction = 1 then -1 else 1

/-- Leverage clamping used at replay time: `max(1, min(5, floor(lev)))`. -/
def clampLev (leverage : ℚ) : ℚ := max 1 (min 5 ((⌊leverage⌋ : ℚ)))

/-- `applySignalTargetPct` from the segments engine, as a function from the
mutable `(buckets, meta)` pair to its updated value. -/
def applySignalTargetPct (b : Buckets) (m : Meta) (p : SigParams) : Buckets × Meta :=
  let asset := upper p.asset
  if ¬ isSupportedAsset asset then (b, m)
  else
    let usd := isUsdAsset asset
    let dir : Int := if usd then 0 else replayDirection p.direction
    let lev : ℚ := if usd then 1 else clampLev p.leverage
    let m := setKey m asset ⟨dir, lev, usd⟩
    let total := sumBuckets b
    if sumBuckets b ≤ 0 ∨ isBrandNewSeed b then
      -- first ever position: buckets[asset] = 1.0 and everything else deleted
      ([(asset, 1)], m)
    else
      let targetPct := clampPct p.weight_raw
      let current := lookupOr0 b asset
      let otherTotal := total - current
      let desired := targetPct * total
      let desiredOtherTotal := total - desired
      let b1 :=
        if 0 < otherTotal then scaleOthers b asset (desiredOtherTotal / otherTotal)
        else if 0 < desiredOtherTotal then
          setKey b "USD" (lookupOr0 b "USD" + desiredOtherTotal)
        else b
      let m1 :=
        if 0 < otherTotal then m
        else if 0 < desiredOtherTotal then setKey m "USD" ⟨0, 1, true⟩
        else m
      if desired ≤ 0 then (eraseKey b1 asset, eraseKey m1 asset)
      else (setKey b1 asset desired, m1)


/-! ### Association-list lemmas

`buckets` and `meta` are JS objects with unique keys; the following lemmas
relate `setKey`, `eraseKey` and `scaleOthers` to `sumBuckets` and `lookupOr0`
under that uniqueness invariant. -/

lemma lookupKey_cons_self {α : Type} {a : Sym} {v : α} {xs : List (Sym × α)} :
    lookupKey ((a, v) :: xs) a = some v := by
  simp [lookupKey]

lemma lookupKey_cons_ne {α : Type} {x : Sym × α} {xs : List (Sym × α)} {a : Sym}
    (h : ¬ x.1 = a) : lookupKey (x :: xs) a = lookupKey xs a := by
  simp [lookupKey, h]

lemma lookupOr0_cons_fst (x : Sym × ℚ) (b : Buckets) : lookupOr0 (x :: b) x.1 = x.2 := by
  simp [lookupOr0, lookupKey]

lemma lookupOr0_cons_ne {b : Buckets} {x : Sym × ℚ} {a : Sym} (h : ¬ x.1 = a) :
    lookupOr0 (x :: b) a = lookupOr0 b a := by
  simp [lookupOr0, lookupKey_cons_ne h]

lemma setKey_cons_eq {α : Type} (x : Sym × α) (xs : List (Sym × α)) (v : α) :
    setKey (x :: xs) x.1 v = (x.1, v) :: xs := by
  simp [setKey]

lemma setKey_cons_ne {α : Type} {x : Sym × α} {a : Sym} (xs : List (Sym × α)) (v : α)
    (h : ¬ x.1 = a) : setKey (x :: xs) a v = x :: setKey xs a v := by
  simp [setKey, h]

lemma eraseKey_cons_eq {α : Type} (x : Sym × α) (xs : List (Sym × α)) :
    eraseKey (x :: xs) x.1 = xs := by
  simp [eraseKey]

lemma eraseKey_cons_ne {α : Type} {x : Sym × α} {a : Sym} (xs : List (Sym × α))
    (h : ¬ x.1 = a) : eraseKey (x :: xs) a = x :: eraseKey xs a := by
  simp [eraseKey, h]

lemma scaleOthers_cons (x : Sym × ℚ) (xs : Buckets) (a : Sym) (k : ℚ) :
    scaleOthers (x :: xs) a k =
      (if x.1 = a then x else (x.1, x.2 * k)) :: scaleOthers xs a k := rfl

lemma sumBuckets_nil : sumBuckets [] = 0 := rfl

lemma sumBuckets_cons (x : Sym × ℚ) (b : Buckets) :
    sumBuckets (x :: b) = x.2 + sumBuckets b := by
  simp [sumBuckets]

lemma sumBuckets_setKey (b : Buckets) (a : Sym) (v : ℚ) :
    sumBuckets (setKey b a v) = sumBuckets b - lookupOr0 b a + v := by
  induction b with
  | nil => simp [setKey, sumBuckets, lookupOr0, lookupKey]
  | cons x xs ih =>
    by_cases hx : x.1 = a
    · subst hx
      rw [setKey_cons_eq, sumBuckets_cons, sumBuckets_cons, lookupOr0_cons_fst]
      ring
    · rw [setKey_cons_ne xs v hx, sumBuckets_cons, sumBuckets_cons, ih,
        lookupOr0_cons_ne hx]
      ring

lemma sumBuckets_eraseKey (b : Buckets) (a : Sym) :
    sumBuckets (eraseKey b a) = sumBuckets b - lookupOr0 b a := by
  induction b with
  | nil => simp [eraseKey, sumBuckets, lookupOr0, lookupKey]
  | cons x xs ih =>
    by_cases hx : x.1 = a
    · subst hx
      rw [eraseKey_cons_eq, sumBuckets_cons, lookupOr0_cons_fst]
      ring
    · rw [eraseKey_cons_ne xs hx, sumBuckets_cons, sumBuckets_cons, ih,
        lookupOr0_cons_ne hx]
      ring

lemma eraseKey_subset {α : Type} (l : List (Sym × α)) (a : Sym) :
    ∀ p ∈ eraseKey l a, p ∈ l := by
  induction l with
  | nil => simp [eraseKey]
  | cons x xs ih =>
    by_cases hx : x.1 = a
    · subst hx
      rw [eraseKey_cons_eq]
      intro p hp
      exact List.mem_cons_of_mem x hp
    · rw [eraseKey_cons_ne xs hx]
      intro p hp
      rcases List.mem_cons.1 hp with h | h
      · exact h ▸ List.mem_cons_self x xs
      · exact List.mem_cons_of_mem x (ih p h)

lemma sumBuckets_scaleOthers_notMem (xs : Buckets) (a : Sym) (k : ℚ)
    (hnx : ¬ a ∈ xs.map Prod.fst) :
    sumBuckets (scaleOthers xs a k) = k * sumBuckets xs := by
  induction xs with
  | nil => simp [scaleOthers, sumBuckets]
  | cons y ys ih =>
    simp only [List.map_cons, List.mem_cons] at hnx
    push_neg at hnx
    have hy : ¬ y.1 = a := fun hc => hnx.1 hc.symm
    rw [scaleOthers_cons, if_neg hy, sumBuckets_cons, sumBuckets_cons, ih hnx.2]
    ring

lemma sumBuckets_scaleOthers (b : Buckets) (a : Sym) (k : ℚ)
    (hnd : (b.map Prod.fst).Nodup) :
    sumBuckets (scaleOthers b a k) = lookupOr0 b a + k * (sumBuckets b - lookupOr0 b a) := by
  induction b with
  | nil => simp [scaleOthers, sumBuckets, lookupOr0, lookupKey]
  | cons x xs ih =>
    simp only [List.map_cons, List.nodup_cons] at hnd
    by_cases hx : x.1 = a
    · subst hx
      rw [scaleOthers_cons, if_pos rfl, sumBuckets_cons, lookupOr0_cons_fst,
        sumBuckets_cons, sumBuckets_scaleOthers_notMem xs x.1 k hnd.1]
      ring
    · rw [scaleOthers_cons, if_neg hx, sumBuckets_cons, sumBuckets_cons, ih hnd.2,
        lookupOr0_cons_ne hx]
      ring

lemma keys_scaleOthers (b : Buckets) (a : Sym) (k : ℚ) :
    (scaleOthers b a k).map Prod.fst = b.map Prod.fst := by
  induction b with
  | nil => rfl
  | cons x xs ih =>
    rw [scaleOthers_cons, List.map_cons, List.map_cons, ih]
    by_cases hx : x.1 = a
    · rw [if_pos hx]
    · rw [if_neg hx]

lemma lookupOr0_scaleOthers_self (b : Buckets) (a : Sym) (k : ℚ) :
    lookupOr0 (scaleOthers b a k) a = lookupOr0 b a := by
  induction b with
  | nil => rfl
  | cons x xs ih =>
    by_cases hx : x.1 = a
    · subst hx
      rw [scaleOthers_cons, if_pos rfl, lookupOr0_cons_fst, lookupOr0_cons_fst]
    · rw [scaleOthers_cons, if_neg hx, @lookupOr0_cons_ne (scaleOthers xs a k) (x.1, x.2 * k) a hx,
        lookupOr0_cons_ne hx, ih]

lemma lookupOr0_setKey_ne (b : Buckets) (x a : Sym) (v : ℚ) (h : ¬ x = a) :
    lookupOr0 (setKey b x v) a = lookupOr0 b a := by
  induction b with
  | nil => simp [setKey, lookupOr0, lookupKey, h]
  | cons y ys ih =>
    by_cases hy : y.1 = x
    · subst hy
      rw [setKey_cons_eq, @lookupOr0_cons_ne ys (y.1, v) a h, lookupOr0_cons_ne h]
    · rw [setKey_cons_ne ys v hy]
      by_cases hya : y.1 = a
      · subst hya
        rw [lookupOr0_cons_fst, lookupOr0_cons_fst]
      · rw [lookupOr0_cons_ne hya, lookupOr0_cons_ne hya, ih]

lemma mem_keys_setKey {α : Type} (l : List (Sym × α)) (a c : Sym) (v : α) :
    c ∈ (setKey l a v).map Prod.fst ↔ c ∈ l.map Prod.fst ∨ c = a := by
  induction l with
  | nil => simp [setKey]
  | cons x xs ih =>
    by_cases hx : x.1 = a
    · subst hx
      rw [setKey_cons_eq]
      simp only [List.map_cons, List.mem_cons]
      tauto
    · rw [setKey_cons_ne xs v hx]
      simp only [List.map_cons, List.mem_cons, ih]
      tauto

lemma nodup_keys_setKey {α : Type} (l : List (Sym × α)) (a : Sym) (v : α)
    (hnd : (l.map Prod.fst).Nodup) : ((setKey l a v).map Prod.fst).Nodup := by
  induction l with
  | nil => simp [setKey]
  | cons x xs ih =>
    simp only [List.map_cons, List.nodup_cons] at hnd
    by_cases hx : x.1 = a
    · subst hx
      rw [setKey_cons_eq]
      simp only [List.map_cons, List.nodup_cons]
      exact hnd
    · rw [setKey_cons_ne xs v hx]
      simp only [List.map_cons, List.nodup_cons]
      refine ⟨?_, ih hnd.2⟩
      intro hc
      rcases (mem_keys_setKey xs a x.1 v).1 hc with h | h
      · exact hnd.1 h
      · exact hx h

lemma nonneg_sub_lookup (b : Buckets) (a : Sym) (hpos : ∀ p ∈ b, 0 ≤ p.2) :
    0 ≤ sumBuckets b - lookupOr0 b a := by
  rw [← sumBuckets_eraseKey b a]
  unfold sumBuckets
  apply List.sum_nonneg
  intro x hx
  rcases List.mem_map.1 hx with ⟨p, hp, rfl⟩
  exact hpos p (eraseKey_subset b a p hp)

lemma clampPct_nonneg (w : ℚ) : 0 ≤ clampPct w := by
  unfold clampPct
  positivity

lemma clampPct_le_one (w : ℚ) : clampPct w ≤ 1 := by
  unfold clampPct
  rw [div_le_one (by norm_num)]
  have : min 100 ((⌊w⌋ : ℚ)) ≤ 100 := min_le_left _ _
  exact max_le (by norm_num) this

/-! Evaluation lemmas for the concrete symbols used in witnesses: `upper`,
`isUsdAsset` and `isSupportedAsset` reduce by `rfl` on literals, and keeping
them as rewrite rules stops `simp` from unfolding `Char.toUpper`. -/

@[simp] lemma upper_BTC : upper "BTC" = "BTC" := rfl

@[simp] lemma upper_ETH : upper "ETH" = "ETH" := rfl

@[simp] lemma upper_USD : upper "USD" = "USD" := rfl

@[simp] lemma isUsd_BTC : isUsdAsset "BTC" = false := rfl

@[simp] lemma isUsd_ETH : isUsdAsset "ETH" = false := rfl

@[simp] lemma isUsd_USD : isUsdAsset "USD" = true := rfl

@[simp] lemma isSupported_BTC : isSupportedAsset "BTC" = true := rfl

@[simp] lemma isSupported_ETH : isSupportedAsset "ETH" = true := rfl

@[simp] lemma isSupported_USD : isSupportedAsset "USD" = true := rfl

example :
    (applySignalTargetPct [("BTC", 1)] [("BTC", ⟨1, 1, false⟩)]
      ⟨"ETH", 0, 2, 40⟩).1 = [("BTC", 3/5), ("ETH", 2/5)] := by
  simp [applySignalTargetPct, sumBuckets, isBrandNewSeed, hasNonUsdExposure,
    lookupOr0, lookupKey, clampPct, scaleOthers, setKey, eraseKey, replayDirection,
    clampLev, max_def, min_def] <;> norm_num

example :
    (applySignalTargetPct [("USD", 2)] [("USD", ⟨0, 1, true⟩)]
      ⟨"USD", 0, 1, 50⟩).1 = [("USD", 1)] := by
  simp [applySignalTargetPct, sumBuckets, isBrandNewSeed, hasNonUsdExposure,
    lookupOr0, lookupKey, clampPct, scaleOthers, setKey, eraseKey, replayDirection,
    clampLev, max_def, min_def] <;> norm_num <;> simp [setKey]

example :
    (applySignalTargetPct [("USD", 1)] [("USD", ⟨0, 1, true⟩)]
      ⟨"BTC", 0, 1, 60⟩).1 = [("BTC", 1)] := by
  simp [applySignalTargetPct, sumBuckets, isBrandNewSeed, hasNonUsdExposure,
    lookupOr0, lookupKey, clampPct, scaleOthers, setKey, eraseKey, replayDirection,
    clampLev, max_def, min_def] <;> norm_num

/-! ### C1 — allocation closure -/

/-- **C1** (amended).  Rebalancing a holdings state with positive total equity
that is not the brand-new seed, for a supported asset, preserves the sum of
bucket values — except in the edge case excluded below, where the signaled
asset is USD and it is (weakly) the whole portfolio while the target is below
100%.  When the state is the brand-new seed, the sum is reset to exactly 1. -/
theorem C1_allocation_closure :
    (∀ (b : Buckets) (m : Meta) (p : SigParams),
        (b.map Prod.fst).Nodup →
        (∀ q ∈ b, 0 ≤ q.2) →
        0 < sumBuckets b →
        isBrandNewSeed b = false →
        isSupportedAsset (upper p.asset) = true →
        ¬(upper p.asset = "USD" ∧ sumBuckets b - lookupOr0 b (upper p.asset) ≤ 0 ∧
            clampPct p.weight_raw < 1) →
        sumBuckets (applySignalTargetPct b m p).1 = sumBuckets b) ∧
    (∀ (b : Buckets) (m : Meta) (p : SigParams),
        isBrandNewSeed b = true →
        isSupportedAsset (upper p.asset) = true →
        sumBuckets (applySignalTargetPct b m p).1 = 1) := by
  constructor
  · intro b m p hnd hpos htot hseed hsupp hedge
    have hdes0 : 0 ≤ clampPct p.weight_raw * sumBuckets b :=
      mul_nonneg (clampPct_nonneg _) (le_of_lt htot)
    have hdesle : clampPct p.weight_raw * sumBuckets b ≤ sumBuckets b :=
      mul_le_of_le_one_left (le_of_lt htot) (clampPct_le_one _)
    have hOT0 : 0 ≤ sumBuckets b - lookupOr0 b (upper p.asset) :=
      nonneg_sub_lookup b (upper p.asset) hpos
    simp only [applySignalTargetPct]
    rw [if_neg (not_not_intro hsupp),
      if_neg (not_or.2 ⟨not_le.2 htot, by simp [hseed]⟩),
      apply_ite Prod.fst]
    dsimp only
    split_ifs with h1 h2 h3 h4 h5
    · -- desired ≤ 0, otherTotal > 0
      rw [sumBuckets_eraseKey, lookupOr0_scaleOthers_self,
        sumBuckets_scaleOthers _ _ _ hnd]
      have hdes : clampPct p.weight_raw * sumBuckets b = 0 := le_antisymm h1 hdes0
      rw [div_mul_cancel₀ _ (ne_of_gt h2), hdes]
      ring
    · -- desired ≤ 0, otherTotal ≤ 0, desiredOther > 0
      have hcur : sumBuckets b - lookupOr0 b (upper p.asset) = 0 :=
        le_antisymm (not_lt.1 h2) hOT0
      have hpct : clampPct p.weight_raw < 1 := by
        rcases lt_or_ge (clampPct p.weight_raw) 1 with h | h
        · exact h
        · exfalso; nlinarith
      have husd : ¬ upper p.asset = "USD" := fun hu => hedge ⟨hu, le_of_eq hcur, hpct⟩
      have hdes : clampPct p.weight_raw * sumBuckets b = 0 := le_antisymm h1 hdes0
      rw [sumBuckets_eraseKey, sumBuckets_setKey,
        lookupOr0_setKey_ne b "USD" (upper p.asset) _ (fun hc => husd hc.symm)]
      rw [hdes] at *
      linarith [hcur]
    · -- desired ≤ 0, otherTotal ≤ 0, desiredOther ≤ 0: impossible
      exfalso
      have hge : sumBuckets b ≤ clampPct p.weight_raw * sumBuckets b := by linarith
      linarith
    · -- desired > 0, otherTotal > 0
      rw [sumBuckets_setKey, lookupOr0_scaleOthers_self,
        sumBuckets_scaleOthers _ _ _ hnd, div_mul_cancel₀ _ (ne_of_gt h4)]
      ring
    · -- desired > 0, otherTotal ≤ 0, desiredOther > 0
      have hcur : sumBuckets b - lookupOr0 b (upper p.asset) = 0 :=
        le_antisymm (not_lt.1 h4) hOT0
      have hpct : clampPct p.weight_raw < 1 := by
        rcases lt_or_ge (clampPct p.weight_raw) 1 with h | h
        · exact h
        · exfalso; nlinarith
      have husd : ¬ upper p.asset = "USD" := fun hu => hedge ⟨hu, le_of_eq hcur, hpct⟩
      rw [sumBuckets_setKey, sumBuckets_setKey,
        lookupOr0_setKey_ne b "USD" (upper p.asset) _ (fun hc => husd hc.symm)]
      linarith [hcur]
    · -- desired > 0, otherTotal ≤ 0, desiredOther ≤ 0
      have hcur : sumBuckets b - lookupOr0 b (upper p.asset) = 0 :=
        le_antisymm (not_lt.1 h4) hOT0
      rw [sumBuckets_setKey]
      linarith [hcur]
  · intro b m p hseed hsupp
    simp only [applySignalTargetPct]
    rw [if_neg (not_not_intro hsupp), if_pos (Or.inr hseed)]
    simp [sumBuckets]

/-- **C1** counterexample to the claim as stated: holdings `{USD: 2}` have
positive total equity and are not the brand-new seed, USD is a supported
asset, yet applying the signal `{asset: USD, weight: 50}` changes the bucket
sum from 2 to 1. -/
theorem C1_counterexample :
    0 < sumBuckets [("USD", 2)] ∧
    isBrandNewSeed [("USD", 2)] = false ∧
    isSupportedAsset "USD" = true ∧
    sumBuckets (applySignalTargetPct [("USD", 2)] [("USD", ⟨0, 1, true⟩)]
        ⟨"USD", 0, 1, 50⟩).1 ≠ sumBuckets [("USD", 2)] := by
  refine ⟨by norm_num [sumBuckets], ?_, rfl, ?_⟩
  · simp [isBrandNewSeed, lookupOr0, lookupKey]
  · have : (applySignalTargetPct [("USD", 2)] [("USD", ⟨0, 1, true⟩)]
        ⟨"USD", 0, 1, 50⟩).1 = [("USD", 1)] := by
      simp [applySignalTargetPct, sumBuckets, isBrandNewSeed, hasNonUsdExposure,
        lookupOr0, lookupKey, clampPct, scaleOthers, setKey, eraseKey, replayDirection,
        clampLev, max_def, min_def] <;> norm_num <;> simp [setKey]
    rw [this]
    norm_num [sumBuckets]

/-- Witness for `C1_allocation_closure` at concrete inputs. -/
theorem C1_allocation_closure_witness :
    sumBuckets (applySignalTargetPct [("BTC", 1)] [] ⟨"ETH", 0, 2, 40⟩).1 =
      sumBuckets [("BTC", 1)] ∧
    sumBuckets (applySignalTargetPct [("USD", 1)] [] ⟨"BTC", 0, 1, 60⟩).1 = 1 := by
  constructor
  · apply C1_allocation_closure.1
    · simp
    · intro q hq
      simp at hq
      rw [hq]
      norm_num
    · norm_num [sumBuckets]
    · simp [isBrandNewSeed, lookupOr0, lookupKey]
    · rfl
    · intro hc
      simp at hc
  · apply C1_allocation_closure.2
    · simp [isBrandNewSeed, lookupOr0, lookupKey, hasNonUsdExposure]
    · rfl

/-! ### C2 — target-allocation rebalance refines the specification -/

/-- Modelled from the spec's allocation-semantics wording (§4.1), for the
refinement claim C2: first position (the seeded 1.0-unit cash bucket with no
non-cash exposure) ignores the target percentage and moves the whole equity
(value 1.0) into the signaled asset; otherwise the target bucket is set to
`desired = p/100 × T`, every non-target bucket is scaled by
`desiredOther/other` when `other > 0`, a USD cash bucket absorbs the shortfall
when `other == 0` and `desiredOther > 0`, and `desired ≤ 0` deletes the
asset's bucket entirely. -/
def applySignalSpec (b : Buckets) (m : Meta) (p : SigParams) : Buckets × Meta :=
  let asset := upper p.asset
  if ¬ isSupportedAsset asset then (b, m)
  else
    let usd := isUsdAsset asset
    let dir : Int := if usd then 0 else replayDirection p.direction
    let lev : ℚ := if usd then 1 else clampLev p.leverage
    let m1 := setKey m asset ⟨dir, lev, usd⟩
    if isBrandNewSeed b then ([(asset, 1)], m1)
    else
      let T := sumBuckets b
      let current := lookupOr0 b asset
      let other := T - current
      let desired := clampPct p.weight_raw * T
      let desiredOther := T - desired
      let b1 :=
        if 0 < other then scaleOthers b asset (desiredOther / other)
        else if other = 0 ∧ 0 < desiredOther then
          setKey b "USD" (lookupOr0 b "USD" + desiredOther)
        else b
      let m2 :=
        if 0 < other then m1
        else if other = 0 ∧ 0 < desiredOther then setKey m1 "USD" ⟨0, 1, true⟩
        else m1
      if desired ≤ 0 then (eraseKey b1 asset, eraseKey m2 asset)
      else (setKey b1 asset desired, m2)

/-- **C2**.  On every valid holdings state (nonnegative buckets, and either
positive total equity or the brand-new seed) `applySignalTargetPct` computes
exactly the rebalance described by the spec, and in particular holdings
`{BTC: 1.0}` with signal `{ETH, weight 40}` become `{BTC: 0.6, ETH: 0.4}`. -/
theorem C2_rebalance_refines_spec :
    (∀ (b : Buckets) (m : Meta) (p : SigParams),
        (∀ q ∈ b, 0 ≤ q.2) →
        (0 < sumBuckets b ∨ isBrandNewSeed b = true) →
        applySignalTargetPct b m p = applySignalSpec b m p) ∧
    (applySignalTargetPct [("BTC", 1)] [("BTC", ⟨1, 1, false⟩)]
        ⟨"ETH", 0, 2, 40⟩).1 = [("BTC", 3/5), ("ETH", 2/5)] := by
  constructor
  · intro b m p hpos hvalid
    by_cases hsupp : isSupportedAsset (upper p.asset) = true
    · simp only [applySignalTargetPct, applySignalSpec]
      rw [if_neg (not_not_intro hsupp), if_neg (not_not_intro hsupp)]
      by_cases hseed : isBrandNewSeed b = true
      · rw [if_pos (Or.inr hseed), if_pos hseed]
      · have htot : 0 < sumBuckets b := by
          rcases hvalid with h | h
          · exact h
          · exact absurd h hseed
        rw [if_neg (not_or.2 ⟨not_le.2 htot, hseed⟩), if_neg hseed]
        have hOT0 : 0 ≤ sumBuckets b - lookupOr0 b (upper p.asset) :=
          nonneg_sub_lookup b (upper p.asset) hpos
        by_cases hot : 0 < sumBuckets b - lookupOr0 b (upper p.asset)
        · simp only [if_pos hot]
        · have heq0 : sumBuckets b - lookupOr0 b (upper p.asset) = 0 :=
            le_antisymm (not_lt.1 hot) hOT0
          simp only [if_neg hot, heq0, eq_self_iff_true, true_and]
    · simp only [applySignalTargetPct, applySignalSpec]
      rw [if_pos hsupp, if_pos hsupp]
  · simp [applySignalTargetPct, sumBuckets, isBrandNewSeed, hasNonUsdExposure,
      lookupOr0, lookupKey, clampPct, scaleOthers, setKey, eraseKey, replayDirection,
      clampLev, max_def, min_def] <;> norm_num

/-- Witness for `C2_rebalance_refines_spec` at a concrete input. -/
theorem C2_rebalance_refines_spec_witness :
    applySignalTargetPct [("BTC", 1)] [("BTC", ⟨1, 1, false⟩)] ⟨"ETH", 0, 2, 40⟩ =
      applySignalSpec [("BTC", 1)] [("BTC", ⟨1, 1, false⟩)] ⟨"ETH", 0, 2, 40⟩ := by
  apply C2_rebalance_refines_spec.1
  · intro q hq
    simp at hq
    rw [hq]
    norm_num
  · left
    norm_num [sumBuckets]

/-! ### C8 — direction mapping at ingestion and replay -/

/-- Direction mapping of `syncSignals` (ingestion): contract enum value `1`
is stored as `1` (Short); a hypothetical value `2` is also stored as `1`
(Short, "for robustness"); anything else is stored as `0` (Long). -/
def ingestDirection (targetRaw : Int) : Int :=
  if targetRaw = 1 then 1 else if targetRaw = 2 then 1 else 0

lemma lookupKey_setKey_self {α : Type} (l : List (Sym × α)) (a : Sym) (v : α) :
    lookupKey (setKey l a v) a = some v := by
  induction l with
  | nil => simp [setKey, lookupKey]
  | cons x xs ih =>
    by_cases hx : x.1 = a
    · subst hx
      rw [setKey_cons_eq]
      exact lookupKey_cons_self
    · rw [setKey_cons_ne xs v hx, lookupKey_cons_ne hx, ih]

/-- **C8** counterexample to the claim as stated: at the ingestion path the
contract enum value `2` is mapped to the Short encoding (`1`), the same as
value `1`, not to Long (`0`) as "any other value meaning Long" requires. -/
theorem C8_counterexample :
    ingestDirection 2 = 1 ∧ ingestDirection 2 = ingestDirection 1 ∧
      ¬ ingestDirection 2 = 0 := by
  refine ⟨rfl, rfl, ?_⟩
  intro h
  simp [ingestDirection] at h

/-- **C8** (amended).  At ingestion, contract values `1` and `2` are stored as
Short (`1`) and every other value as Long (`0`); at replay, a stored value
`1` is applied as Short (`-1`) and any other stored value as Long (`+1`), as
witnessed by the meta record that `applySignalTargetPct` writes for a
supported non-USD asset; composed, contract values `1` and `2` act as Short
and all others as Long. -/
theorem C8_direction_mapping :
    (∀ t : Int, ingestDirection t = if t = 1 ∨ t = 2 then 1 else 0) ∧
    (∀ d : Int, replayDirection d = if d = 1 then -1 else 1) ∧
    (∀ t : Int, replayDirection (ingestDirection t) = if t = 1 ∨ t = 2 then -1 else 1) ∧
    (∀ (b : Buckets) (m : Meta) (p : SigParams),
        isBrandNewSeed b = true →
        isSupportedAsset (upper p.asset) = true →
        isUsdAsset (upper p.asset) = false →
        lookupKey (applySignalTargetPct b m p).2 (upper p.asset) =
          some ⟨replayDirection p.direction, clampLev p.leverage, false⟩) := by
  refine ⟨?_, fun d => rfl, ?_, ?_⟩
  · intro t
    simp only [ingestDirection]
    split_ifs with h1 h2 h3 h3 <;> tauto
  · intro t
    simp only [ingestDirection, replayDirection]
    split_ifs with h1 h2 h3 h3 h4 h4 <;> first | rfl | tauto | omega
  · intro b m p hseed hsupp husd
    simp only [applySignalTargetPct]
    rw [if_neg (not_not_intro hsupp), if_pos (Or.inr hseed)]
    simp only [husd, Bool.false_eq_true, if_false]
    exact lookupKey_setKey_self m (upper p.asset) _

/-- Witness for `C8_direction_mapping` at concrete inputs. -/
theorem C8_direction_mapping_witness :
    replayDirection (ingestDirection 5) = 1 ∧
    lookupKey (applySignalTargetPct [("USD", 1)] [] ⟨"BTC", 1, 3, 50⟩).2 "BTC" =
      some ⟨-1, 3, false⟩ := by
  constructor
  · exact C8_direction_mapping.2.2.1 5
  · have h := C8_direction_mapping.2.2.2 [("USD", 1)] [] ⟨"BTC", 1, 3, 50⟩
      (by simp [isBrandNewSeed, lookupOr0, lookupKey, hasNonUsdExposure]) rfl rfl
    rw [upper_BTC] at h
    rw [h]
    norm_num [replayDirection, clampLev, max_def, min_def]

/-! ### C10 — replay position snapshots -/

/-- One entry of a `strategy_position_snapshots` row. -/
structure SnapPos where
  asset : Sym
  percent : ℚ
  direction : String
  leverage : ℚ
deriving DecidableEq, Repr

/-- `recordPositionSnapshot` from `extendSegmentsForStrategy`: builds the
percentage positions from the current buckets, or writes nothing (`none`)
when total equity is not strictly positive or no displayable position
remains.  (`Number.isFinite(total)` is vacuous over `ℚ`; `Number(v) || 1`
maps a zero leverage to 1.) -/
def recordPositionSnapshot (buckets : Buckets) (meta : Meta) : Option (List SnapPos) :=
  let total := sumBuckets buckets
  if total ≤ 0 then none
  else
    let positions := buckets.filterMap (fun q =>
      if 0 < q.2 then
        let asset := upper q.1
        if isSupportedAsset asset then
          let usd := isUsdAsset asset
          let m := (lookupKey meta asset).getD ⟨0, 1, usd⟩
          some ⟨asset, q.2 / total * 100,
            if usd then "CASH" else if m.direction < 0 then "SHORT" else "LONG",
            if usd then 1 else if m.leverage = 0 then 1 else m.leverage⟩
        else none
      else none)
    if positions.isEmpty then none else some positions

/-- **C10**.  A replay snapshot is produced exactly when total equity is
strictly positive and some supported bucket has strictly positive value, and
every position it contains has a strictly positive percentage; in particular
a strategy whose equity has reached zero gets no snapshot. -/
theorem C10_snapshot_positive :
    ∀ (b : Buckets) (m : Meta),
      ((recordPositionSnapshot b m).isSome ↔
        0 < sumBuckets b ∧ ∃ q ∈ b, 0 < q.2 ∧ isSupportedAsset (upper q.1) = true) ∧
      (∀ ps, recordPositionSnapshot b m = some ps → ∀ pos ∈ ps, 0 < pos.percent) := by
  intro b m
  by_cases htot : sumBuckets b ≤ 0
  · constructor
    · simp only [recordPositionSnapshot, if_pos htot]
      simp only [Option.isSome_none, Bool.false_eq_true, false_iff]
      intro ⟨h, _⟩
      exact absurd h (not_lt.2 htot)
    · intro ps hps
      simp only [recordPositionSnapshot, if_pos htot] at hps
      exact absurd hps (by simp)
  · have htot' : 0 < sumBuckets b := not_le.1 htot
    constructor
    · simp only [recordPositionSnapshot, if_neg htot]
      by_cases hemp : (b.filterMap (fun q =>
          if 0 < q.2 then
            if isSupportedAsset (upper q.1) then
              some (⟨upper q.1, q.2 / sumBuckets b * 100,
                if isUsdAsset (upper q.1) then "CASH"
                else if ((lookupKey m (upper q.1)).getD
                    ⟨0, 1, isUsdAsset (upper q.1)⟩).direction < 0 then "SHORT" else "LONG",
                if isUsdAsset (upper q.1) then 1
                else if ((lookupKey m (upper q.1)).getD
                    ⟨0, 1, isUsdAsset (upper q.1)⟩).leverage = 0 then 1
                else ((lookupKey m (upper q.1)).getD
                    ⟨0, 1, isUsdAsset (upper q.1)⟩).leverage⟩ : SnapPos)
            else none
          else none)).isEmpty = true
      · rw [if_pos hemp]
        simp only [Option.isSome_none, Bool.false_eq_true, false_iff]
        rintro ⟨-, q, hq, hqpos, hqsupp⟩
        rw [List.isEmpty_iff, List.filterMap_eq_nil] at hemp
        have := hemp q hq
        rw [if_pos hqpos, if_pos hqsupp] at this
        exact absurd this (by simp)
      · rw [if_neg hemp]
        simp only [Option.isSome_some, true_iff]
        refine ⟨htot', ?_⟩
        rw [List.isEmpty_iff] at hemp
        rcases List.exists_mem_of_ne_nil _ hemp with ⟨pos, hpos⟩
        rcases List.mem_filterMap.1 hpos with ⟨q, hq, hfq⟩
        refine ⟨q, hq, ?_, ?_⟩
        · by_contra hc
          rw [if_neg hc] at hfq
          exact absurd hfq (by simp)
        · by_contra hc
          rw [if_neg hc] at hfq
          simp at hfq
    · intro ps hps pos hpos
      simp only [recordPositionSnapshot, if_neg htot] at hps
      split at hps
      · exact absurd hps (by simp)
      · rw [Option.some_inj] at hps
        subst hps
        rcases List.mem_filterMap.1 hpos with ⟨q, hq, hfq⟩
        by_cases hqpos : 0 < q.2
        · rw [if_pos hqpos] at hfq
          by_cases hqsupp : isSupportedAsset (upper q.1) = true
          · rw [if_pos hqsupp, Option.some_inj] at hfq
            subst hfq
            have : (0:ℚ) < q.2 / sumBuckets b := div_pos hqpos htot'
            simp only []
            positivity
          · rw [if_neg hqsupp] at hfq
            exact absurd hfq (by simp)
        · rw [if_neg hqpos] at hfq
          exact absurd hfq (by simp)

/-- Witness for `C10_snapshot_positive` at a concrete input. -/
theorem C10_snapshot_positive_witness :
    (recordPositionSnapshot [("BTC", 1)] []).isSome = true ∧
    (recordPositionSnapshot [("BTC", 0)] []).isSome = false := by
  constructor
  · exact (C10_snapshot_positive [("BTC", 1)] []).1.2
      ⟨by norm_num [sumBuckets], ("BTC", 1), by simp, by norm_num, rfl⟩
  · rw [Bool.eq_false_iff]
    intro hc
    rcases ((C10_snapshot_positive [("BTC", 0)] []).1.1 hc).1.ne' (by norm_num [sumBuckets])

/-! ### Price series, `priceAtOrBefore` and drift (C9, C3) -/

/-- Per-asset price series as built by `buildPriceSeries`: parallel arrays of
timestamps (sorted ascending, unique per asset) and USD prices. -/
structure PriceSeries where
  ts : List Int
  px : List ℚ
deriving DecidableEq, Repr

/-- The binary-search loop of `priceAtOrBefore`, searching for the rightmost
index with `ts[i] <= q`.  The source uses an inclusive upper bound `hi` and
steps `hi = mid - 1`; here `hi2 = hi + 1` is the exclusive bound, so the JS
`lo <= hi` is `lo < hi2` and `mid = (lo + hi) >> 1 = (lo + (hi2-1)) / 2`. -/
def pabLoop (ts : List Int) (q : Int) : Nat → Nat → Option Nat → Option Nat :=
  fun lo hi2 best =>
    if h : lo < hi2 then
      let mid := (lo + (hi2 - 1)) / 2
      if ts.getD mid 0 ≤ q then pabLoop ts q (mid + 1) hi2 (some mid)
      else pabLoop ts q lo mid best
    else best
termination_by lo hi2 _ => hi2 - lo
decreasing_by all_goals omega

/-- `priceAtOrBefore`: `none` for a missing/empty series, otherwise the price
at the rightmost index with `ts[i] <= q`, and `none` again unless that price
is strictly positive. -/
def priceAtOrBefore (series : Option PriceSeries) (q : Int) : Option ℚ :=
  match series with
  | none => none
  | some s =>
    if s.ts.length = 0 then none
    else
      match pabLoop s.ts q 0 s.ts.length none with
      | none => none
      | some best =>
        let p := s.px.getD best 0
        if 0 < p then some p else none

/-- `i` is the rightmost index of `ts` whose timestamp is at-or-before `q`. -/
def isRightmostLE (ts : List Int) (q : Int) (i : Nat) : Prop :=
  i < ts.length ∧ ts.getD i 0 ≤ q ∧ ∀ j, j < ts.length → i < j → q < ts.getD j 0

lemma isRightmostLE_unique {ts : List Int} {q : Int} {i j : Nat}
    (hi : isRightmostLE ts q i) (hj : isRightmostLE ts q j) : i = j := by
  by_contra hne
  rcases Nat.lt_or_ge i j with h | h
  · exact absurd hj.2.1 (not_le.2 (hi.2.2 j hj.1 h))
  · have h' : j < i := by omega
    exact absurd hi.2.1 (not_le.2 (hj.2.2 i hi.1 h'))

lemma pabLoop_go (ts : List Int) (q : Int)
    (hsort : ∀ i j, i < j → j < ts.length → ts.getD i 0 < ts.getD j 0) :
    ∀ n lo hi2 best, hi2 - lo = n → lo ≤ hi2 → hi2 ≤ ts.length →
      (∀ i, i < lo → ts.getD i 0 ≤ q) →
      (∀ i, hi2 ≤ i → i < ts.length → q < ts.getD i 0) →
      (best = none ∧ lo = 0 ∨ best = some (lo - 1) ∧ 0 < lo) →
      (pabLoop ts q lo hi2 best = none → ∀ i, i < ts.length → q < ts.getD i 0) ∧
      (∀ b, pabLoop ts q lo hi2 best = some b → isRightmostLE ts q b) := by
  intro n
  induction n using Nat.strong_induction_on with
  | _ n IH =>
    intro lo hi2 best hn hlohi hhi2 hlow hhigh hbest
    by_cases h : lo < hi2
    · rw [pabLoop]
      simp only [dif_pos h]
      set mid := (lo + (hi2 - 1)) / 2 with hmid
      have hmidlo : lo ≤ mid := by omega
      have hmidhi : mid < hi2 := by omega
      by_cases hle : ts.getD mid 0 ≤ q
      · rw [if_pos hle]
        refine IH (hi2 - (mid + 1)) (by omega) (mid + 1) hi2 (some mid) rfl (by omega)
          hhi2 ?_ hhigh (Or.inr ⟨by simp, by omega⟩)
        intro i hi
        rcases Nat.lt_or_ge i mid with hlt | hge
        · exact le_of_lt (lt_of_lt_of_le (hsort i mid hlt (by omega)) hle)
        · have : i = mid := by omega
          rw [this]; exact hle
      · rw [if_neg hle]
        refine IH (mid - lo) (by omega) lo mid best rfl (by omega) (by omega) hlow ?_ hbest
        intro i hmi hil
        rcases Nat.lt_or_ge mid i with hlt | hge
        · exact lt_trans (not_le.1 hle) (hsort mid i hlt hil)
        · have : i = mid := by omega
          rw [this]; exact not_le.1 hle
    · rw [pabLoop]
      simp only [dif_neg h]
      rcases hbest with ⟨hb, hl0⟩ | ⟨hb, hlpos⟩
      · subst hb
        refine ⟨fun _ i hi => ?_, fun b hb => by simp at hb⟩
        exact hhigh i (by omega) hi
      · subst hb
        refine ⟨fun hc => by simp at hc, fun b hb => ?_⟩
        rw [Option.some_inj] at hb
        subst hb
        refine ⟨by omega, hlow (lo - 1) (by omega), fun j hj hgt => ?_⟩
        exact hhigh j (by omega) hj

lemma priceAtOrBefore_pos {series : Option PriceSeries} {q : Int} {p : ℚ}
    (h : priceAtOrBefore series q = some p) : 0 < p := by
  cases series with
  | none => simp [priceAtOrBefore] at h
  | some s =>
    simp only [priceAtOrBefore] at h
    by_cases hlen : s.ts.length = 0
    · rw [if_pos hlen] at h
      exact absurd h (by simp)
    · rw [if_neg hlen] at h
      cases hm : pabLoop s.ts q 0 s.ts.length none with
      | none => rw [hm] at h; exact absurd h (by simp)
      | some best =>
        rw [hm] at h
        simp only [] at h
        by_cases hp : 0 < s.px.getD best 0
        · rw [if_pos hp, Option.some_inj] at h
          rw [← h]; exact hp
        · rw [if_neg hp] at h
          exact absurd h (by simp)


/-- The per-bucket body of the `drift` closure: value unchanged for empty or
USD buckets and for missing price endpoints (`priceAtOrBefore` already maps a
non-positive latest price to `none`; the `p0 <= 0` re-check is kept from the
source), otherwise the bucket is multiplied by `1 + direction·leverage·r`
floored at zero. -/
def driftBucketVal (prices : Sym → Option PriceSeries) (meta : Meta) (t0 t1 : Int)
    (asset : Sym) (val : ℚ) : ℚ :=
  if val ≤ 0 then val
  else if isUsdAsset (upper asset) then val
  else
    match priceAtOrBefore (prices (upper asset)) t0,
        priceAtOrBefore (prices (upper asset)) t1 with
    | some p0, some p1 =>
      if p0 ≤ 0 then val
      else
        let m := (lookupKey meta (upper asset)).getD ⟨1, 1, false⟩
        let signed := (m.direction : ℚ) * m.leverage * ((p1 - p0) / p0)
        if 1 + signed ≤ 0 then 0 else val * (1 + signed)
    | _, _ => val

/-- The `drift` helper of `extendSegmentsForStrategy`: drifts every bucket
from `t0` to `t1` (no-op when `t1 ≤ t0`). -/
def drift (prices : Sym → Option PriceSeries) (meta : Meta) (buckets : Buckets)
    (t0 t1 : Int) : Buckets :=
  if t1 ≤ t0 then buckets
  else buckets.map (fun q => (q.1, driftBucketVal prices meta t0 t1 q.1 q.2))

/-- **C9**.  For a sorted series, `priceAtOrBefore` returns `some p` exactly
for the price `p` of the rightmost sample at-or-before the query timestamp,
and only when that price is strictly positive; it returns `none` exactly when
no sample is at-or-before the query or the rightmost such sample's price is
non-positive — it never falls back to an earlier positive sample.
Consequently a `none` endpoint makes the drift step leave the bucket
unchanged. -/
theorem C9_priceAtOrBefore_rightmost :
    (∀ (s : PriceSeries) (q : Int),
      (∀ i j, i < j → j < s.ts.length → s.ts.getD i 0 < s.ts.getD j 0) →
      (∀ p, priceAtOrBefore (some s) q = some p →
        ∃ i, isRightmostLE s.ts q i ∧ s.px.getD i 0 = p ∧ 0 < p) ∧
      (priceAtOrBefore (some s) q = none ↔
        (∀ i, i < s.ts.length → q < s.ts.getD i 0) ∨
        (∃ i, isRightmostLE s.ts q i ∧ s.px.getD i 0 ≤ 0))) ∧
    (∀ (prices : Sym → Option PriceSeries) (meta : Meta) (t0 t1 : Int) (a : Sym) (v : ℚ),
      priceAtOrBefore (prices (upper a)) t0 = none ∨
      priceAtOrBefore (prices (upper a)) t1 = none →
      driftBucketVal prices meta t0 t1 a v = v) := by
  constructor
  · intro s q hsort
    by_cases hlen : s.ts.length = 0
    · constructor
      · intro p hp
        simp only [priceAtOrBefore, if_pos hlen] at hp
        exact absurd hp (by simp)
      · simp only [priceAtOrBefore, if_pos hlen]
        constructor
        · intro _
          left
          intro i hi
          omega
        · intro _
          trivial
    · have hgo := pabLoop_go s.ts q hsort (s.ts.length - 0) 0 s.ts.length none rfl
        (by omega) le_rfl (by omega) (by omega) (Or.inl ⟨rfl, rfl⟩)
      cases hm : pabLoop s.ts q 0 s.ts.length none with
      | none =>
        have hall := hgo.1 hm
        constructor
        · intro p hp
          simp only [priceAtOrBefore, if_neg hlen, hm] at hp
          exact absurd hp (by simp)
        · simp only [priceAtOrBefore, if_neg hlen, hm]
          exact ⟨fun _ => Or.inl hall, fun _ => by trivial⟩
      | some best =>
        have hrm := hgo.2 best hm
        constructor
        · intro p hp
          simp only [priceAtOrBefore, if_neg hlen, hm] at hp
          by_cases hppos : 0 < s.px.getD best 0
          · rw [if_pos hppos, Option.some_inj] at hp
            exact ⟨best, hrm, hp, hp ▸ hppos⟩
          · rw [if_neg hppos] at hp
            exact absurd hp (by simp)
        · simp only [priceAtOrBefore, if_neg hlen, hm]
          by_cases hppos : 0 < s.px.getD best 0
          · rw [if_pos hppos]
            constructor
            · intro hc
              exact absurd hc (by simp)
            · intro hc
              exfalso
              rcases hc with hall | ⟨i, hi, hle⟩
              · exact absurd hrm.2.1 (not_le.2 (hall best hrm.1))
              · rw [isRightmostLE_unique hi hrm] at hle
                exact absurd hppos (not_lt.2 hle)
          · rw [if_neg hppos]
            exact ⟨fun _ => Or.inr ⟨best, hrm, not_lt.1 hppos⟩, fun _ => by trivial⟩
  · intro prices meta t0 t1 a v hnone
    simp only [driftBucketVal]
    by_cases hv : v ≤ 0
    · rw [if_pos hv]
    · rw [if_neg hv]
      by_cases husd : isUsdAsset (upper a) = true
      · rw [if_pos husd]
      · rw [if_neg husd]
        rcases hnone with h0 | h1
        · rw [h0]
        · rw [h1]
          cases priceAtOrBefore (prices (upper a)) t0 <;> rfl


lemma driftBucketVal_nonneg (prices : Sym → Option PriceSeries) (meta : Meta)
    (t0 t1 : Int) (a : Sym) (v : ℚ) (hv : 0 ≤ v) :
    0 ≤ driftBucketVal prices meta t0 t1 a v := by
  simp only [driftBucketVal]
  split_ifs with h1 h2
  · exact hv
  · exact hv
  · cases h0 : priceAtOrBefore (prices (upper a)) t0 with
    | none => simp only [h0]; exact hv
    | some p0 =>
      cases ht1 : priceAtOrBefore (prices (upper a)) t1 with
      | none => simp only [h0, ht1]; exact hv
      | some p1 =>
        simp only [h0, ht1]
        split_ifs with hp0 hmult
        · exact hv
        · exact le_refl 0
        · exact mul_nonneg hv (by linarith [not_le.1 hmult])

/-- **C3**.  Price drift multiplies each non-cash positive bucket by
`max(0, 1 + direction·leverage·(p1−p0)/p0)` where `p0, p1` are the
`priceAtOrBefore` lookups at the endpoints, so a bucket value never becomes
negative (it floors at zero for any leverage and any raw move); if either
endpoint lookup is missing (or the stored price non-positive, which
`priceAtOrBefore` maps to `none`), the bucket is left unchanged. -/
theorem C3_drift_floor :
    (∀ (prices : Sym → Option PriceSeries) (meta : Meta) (t0 t1 : Int) (a : Sym)
        (v p0 p1 : ℚ),
        0 < v → isUsdAsset (upper a) = false →
        priceAtOrBefore (prices (upper a)) t0 = some p0 →
        priceAtOrBefore (prices (upper a)) t1 = some p1 →
        driftBucketVal prices meta t0 t1 a v =
          v * max 0 (1 + (((lookupKey meta (upper a)).getD ⟨1, 1, false⟩).direction : ℚ) *
            ((lookupKey meta (upper a)).getD ⟨1, 1, false⟩).leverage * ((p1 - p0) / p0))) ∧
    (∀ (prices : Sym → Option PriceSeries) (meta : Meta) (t0 t1 : Int) (a : Sym) (v : ℚ),
        0 ≤ v → 0 ≤ driftBucketVal prices meta t0 t1 a v) ∧
    (∀ (prices : Sym → Option PriceSeries) (meta : Meta) (b : Buckets) (t0 t1 : Int),
        (∀ q ∈ b, 0 ≤ q.2) → ∀ q ∈ drift prices meta b t0 t1, 0 ≤ q.2) := by
  refine ⟨?_, ?_, ?_⟩
  · intro prices meta t0 t1 a v p0 p1 hv husd h0 h1
    have hp0 : 0 < p0 := priceAtOrBefore_pos h0
    simp only [driftBucketVal, if_neg (not_le.2 hv), husd, Bool.false_eq_true, if_false,
      h0, h1]
    rw [if_neg (not_le.2 hp0)]
    by_cases hm : 1 + (((lookupKey meta (upper a)).getD ⟨1, 1, false⟩).direction : ℚ) *
        ((lookupKey meta (upper a)).getD ⟨1, 1, false⟩).leverage * ((p1 - p0) / p0) ≤ 0
    · rw [if_pos hm, max_eq_left hm, mul_zero]
    · rw [if_neg hm, max_eq_right (le_of_lt (not_le.1 hm))]
  · exact driftBucketVal_nonneg
  · intro prices meta b t0 t1 hpos q hq
    simp only [drift] at hq
    split_ifs at hq with ht
    · exact hpos q hq
    · rcases List.mem_map.1 hq with ⟨r, hr, rfl⟩
      exact driftBucketVal_nonneg prices meta t0 t1 r.1 r.2 (hpos r hr)

/-- Witness for `C3_drift_floor` at concrete inputs: a long 2x-leveraged BTC
bucket over a +10% move, and the zero floor for a 5x short over the same
move. -/
theorem C3_drift_floor_witness :
    driftBucketVal (fun s => if s = "BTC" then some ⟨[0, 10], [100, 110]⟩ else none)
        [("BTC", ⟨1, 2, false⟩)] 0 10 "BTC" 1 = 6/5 ∧
    0 ≤ driftBucketVal (fun s => if s = "BTC" then some ⟨[0, 10], [100, 50]⟩ else none)
        [("BTC", ⟨-1, 5, false⟩)] 0 10 "BTC" 1 := by
  constructor
  · have h := C3_drift_floor.1
      (fun s => if s = "BTC" then some ⟨[0, 10], [100, 110]⟩ else none)
      [("BTC", ⟨1, 2, false⟩)] 0 10 "BTC" 1 100 110 (by norm_num) rfl
      (by simp [priceAtOrBefore, pabLoop]) (by simp [priceAtOrBefore, pabLoop])
    rw [h]
    norm_num [lookupKey, max_def]
  · exact C3_drift_floor.2.1
      (fun s => if s = "BTC" then some ⟨[0, 10], [100, 50]⟩ else none)
      [("BTC", ⟨-1, 5, false⟩)] 0 10 "BTC" 1 (by norm_num)

/-- Witness for `C9_priceAtOrBefore_rightmost` at a concrete series: the
latest sample at-or-before `12` in `ts = [0, 10]` with `px = [100, -4]` has a
non-positive price, so the lookup is `none` even though the older sample at
index 0 is positive, and a missing endpoint leaves a drifted bucket
unchanged. -/
theorem C9_priceAtOrBefore_rightmost_witness :
    ((∀ i, i < ([0, 10] : List Int).length → (12:Int) < [0, 10].getD i 0) ∨
      (∃ i, isRightmostLE [0, 10] 12 i ∧ ([100, -4] : List ℚ).getD i 0 ≤ 0)) ∧
    driftBucketVal (fun _ => none) [] 0 10 "BTC" 7 = 7 := by
  constructor
  · refine ((C9_priceAtOrBefore_rightmost.1 ⟨[0, 10], [100, -4]⟩ 12 ?_).2).1 ?_
    · intro i j hij hj
      simp at hj
      have : i = 0 ∧ j = 1 := by omega
      rcases this with ⟨rfl, rfl⟩
      norm_num
    · simp [priceAtOrBefore, pabLoop]
  · exact C9_priceAtOrBefore_rightmost.2 (fun _ => none) [] 0 10 "BTC" 7 (Or.inl rfl)

/-! ### Statistics aggregator (C5, C6, C7) -/

/-- One row of `strategy_segments`. -/
structure Segment where
  start_ts : Int
  end_ts : Int
  duration_sec : Int
  raw_return : ℚ
  hourly_equiv_ret : ℚ
  value_index_end : ℚ
deriving DecidableEq, Repr

/-- The transcendental primitives `Math.log` and `Math.sqrt` used by the
statistics aggregator, abstracted so all control-flow and algebraic facts are
proved for every realisation. -/
structure NumOracle where
  log : ℚ → ℚ
  sqrt : ℚ → ℚ

/-- `MIN_SHARPE_OBS`: at least 24 hourly observations. -/
def MIN_SHARPE_OBS : Nat := 24

/-- `SHARPE_MATURITY_HOURS = 24 * 30` (720 hours). -/
def SHARPE_MATURITY_HOURS : ℚ := 24 * 30

/-- `maturityMultiplier`: linear ramp from 0 to 1 over 720 hours. -/
def maturityMultiplier (totalHours : ℚ) : ℚ :=
  if totalHours ≤ 0 then 0 else max 0 (min 1 (totalHours / SHARPE_MATURITY_HOURS))

/-- One row of `strategy_stats` as written by `upsertStatsStmt`. -/
structure StatsRow where
  window : String
  last_updated_ts : Int
  sharpe_annual : Option ℚ
  vol_annual : Option ℚ
  vol_hourly : Option ℚ
  total_return : ℚ
  max_drawdown : ℚ
deriving DecidableEq, Repr

/-- `STAT_WINDOWS`; `none` seconds is the `Infinity` of the `ALL` window. -/
def STAT_WINDOWS : List (String × Option Int) :=
  [("1W", some (7 * 24 * 3600)), ("1M", some (30 * 24 * 3600)),
   ("3M", some (90 * 24 * 3600)), ("6M", some (180 * 24 * 3600)),
   ("1Y", some (365 * 24 * 3600)), ("ALL", none)]

/-- `computeMaxDrawdown` over `valueIdx[i0..]` normalized by `baseValue`. -/
def computeMaxDrawdown (valueIdx : List ℚ) (i0 : Nat) (baseValue : ℚ) : ℚ :=
  ((valueIdx.drop i0).foldl (fun pd eqv =>
      let eq := eqv / baseValue
      let peak := if pd.1 < eq then eq else pd.1
      let dd := (peak - eq) / peak
      (peak, if pd.2 < dd then dd else pd.2)) ((1 : ℚ), (0 : ℚ))).2

/-- `durHr` of one segment. -/
def segDurHours (s : Segment) : ℚ := (s.duration_sec : ℚ) / 3600

/-- The segments from index `i0` on with positive duration — exactly those the
stats loop keeps when collecting `windowHourly`/`totalHours`. -/
def windowQual (segs : List Segment) (i0 : Nat) : List Segment :=
  (segs.drop i0).filter (fun s => 0 < segDurHours s)

/-- `totalHours` of the window. -/
def windowTotalHours (segs : List Segment) (i0 : Nat) : ℚ :=
  ((windowQual segs i0).map segDurHours).sum

/-- `windowHourly`: the hourly return sample of the window. -/
def windowHourly (segs : List Segment) (i0 : Nat) : List ℚ :=
  (windowQual segs i0).map (·.hourly_equiv_ret)

/-- `valueIdx`: the `value_index_end` column. -/
def valueIdxList (segs : List Segment) : List ℚ := segs.map (·.value_index_end)

/-- `baseValue`: equity at window start. -/
def windowBase (segs : List Segment) (i0 : Nat) : ℚ :=
  if 0 < i0 then (valueIdxList segs).getD (i0 - 1) 0 else 1

/-- `finalValue = valueIdx[n - 1]`. -/
def windowFinal (segs : List Segment) : ℚ :=
  (valueIdxList segs).getD (segs.length - 1) 0

/-- `meanHr` of the window's hourly returns. -/
def windowMean (segs : List Segment) (i0 : Nat) : ℚ :=
  (windowHourly segs i0).sum / ((windowHourly segs i0).length : ℚ)

/-- Bessel-corrected sample variance of the window's hourly returns. -/
def windowVariance (segs : List Segment) (i0 : Nat) : ℚ :=
  ((windowHourly segs i0).map
      (fun x => (x - windowMean segs i0) * (x - windowMean segs i0))).sum /
    (((windowHourly segs i0).length : ℚ) - 1)

/-- The per-window body of `recomputeStatsForStrategy` once the slice start
`i0` is known (`Number.isFinite` guards are vacuous over `ℚ`). -/
def statsCore (o : NumOracle) (segs : List Segment) (winId : String) (nowSec : Int)
    (i0 : Nat) : StatsRow :=
  let baseValue := windowBase segs i0
  let finalValue := windowFinal segs
  if baseValue ≤ 0 ∨ finalValue ≤ 0 then
    ⟨winId, nowSec, none, none, none, 0, 0⟩
  else
    let totalReturn := finalValue / baseValue - 1
    let totalLogReturn := o.log finalValue - o.log baseValue
    let totalHours := windowTotalHours segs i0
    let hourly := windowHourly segs i0
    let maxDD := computeMaxDrawdown (valueIdxList segs) i0 baseValue
    if totalHours ≤ 0 ∨ hourly.length < 2 then
      ⟨winId, nowSec, none, none, none, totalReturn, maxDD⟩
    else
      let mu := totalLogReturn / totalHours
      let stdHr := o.sqrt (windowVariance segs i0)
      if stdHr = 0 then
        ⟨winId, nowSec, none, none, none, totalReturn, maxDD⟩
      else
        let sharpeAnnual : Option ℚ :=
          if MIN_SHARPE_OBS ≤ hourly.length ∧ 0 < stdHr then
            some (mu / stdHr * o.sqrt 8760 * maturityMultiplier totalHours)
          else none
        ⟨winId, nowSec, sharpeAnnual, some (stdHr * o.sqrt 8760), some stdHr,
          totalReturn, maxDD⟩

/-- One window of `recomputeStatsForStrategy`: find the first segment with
`end_ts ≥ cutoff` (every segment for `ALL`), emit a neutral row when none
qualifies. -/
def computeWindowStats (o : NumOracle) (segs : List Segment) (winId : String)
    (seconds : Option Int) (nowSec : Int) : StatsRow :=
  match seconds with
  | some secs =>
    match segs.findIdx? (fun s => s.end_ts ≥ nowSec - secs) with
    | none => ⟨winId, nowSec, none, none, none, 0, 0⟩
    | some i0 => statsCore o segs winId nowSec i0
  | none => statsCore o segs winId nowSec 0

/-- `recomputeStatsForStrategy`: skips entirely when the strategy has no
segments, otherwise upserts one row per window. -/
def recomputeStatsForStrategy (o : NumOracle) (segs : List Segment) (nowSec : Int) :
    List StatsRow :=
  if segs.isEmpty then []
  else STAT_WINDOWS.map (fun w => computeWindowStats o segs w.1 w.2 nowSec)

lemma windowTotalHours_pos (segs : List Segment) (i0 : Nat)
    (h : 0 < (windowHourly segs i0).length) : 0 < windowTotalHours segs i0 := by
  unfold windowTotalHours
  apply List.sum_pos
  · intro x hx
    rcases List.mem_map.1 hx with ⟨s, hs, rfl⟩
    rw [windowQual, List.mem_filter] at hs
    exact of_decide_eq_true hs.2
  · intro hc
    rw [windowHourly] at h
    rw [List.map_eq_nil] at hc
    rw [hc] at h
    simp at h

/-- **C5**.  For every window: `sharpeAnnual` is null whenever the window has
fewer than 24 hourly observations, and with at least 24 observations, a
positive σ, and positive base and final values it equals
`(μ/σ) · √8760 · clamp(totalHours/720, 0, 1)` with
`μ = totalLogReturn / totalHours`; every window row is either neutral or a
`statsCore` row; and `maturityMultiplier 24 = 24/720`. -/
theorem C5_sharpe_maturity :
    (∀ (o : NumOracle) (segs : List Segment) (winId : String) (now : Int) (i0 : Nat),
        (windowHourly segs i0).length < MIN_SHARPE_OBS →
        (statsCore o segs winId now i0).sharpe_annual = none) ∧
    (∀ (o : NumOracle) (segs : List Segment) (winId : String) (now : Int) (i0 : Nat),
        MIN_SHARPE_OBS ≤ (windowHourly segs i0).length →
        0 < o.sqrt (windowVariance segs i0) →
        0 < windowBase segs i0 → 0 < windowFinal segs →
        (statsCore o segs winId now i0).sharpe_annual =
          some ((o.log (windowFinal segs) - o.log (windowBase segs i0)) /
              windowTotalHours segs i0 / o.sqrt (windowVariance segs i0) *
              o.sqrt 8760 * max 0 (min 1 (windowTotalHours segs i0 / 720)))) ∧
    (∀ (o : NumOracle) (segs : List Segment) (winId : String) (secs : Option Int)
        (now : Int),
        (computeWindowStats o segs winId secs now).sharpe_annual = none ∨
        ∃ i0, computeWindowStats o segs winId secs now = statsCore o segs winId now i0) ∧
    maturityMultiplier 24 = 24 / 720 := by
  refine ⟨?_, ?_, ?_, ?_⟩
  · intro o segs winId now i0 hlt
    simp only [statsCore]
    split_ifs with h1 h2 h3 h4
    · rfl
    · rfl
    · rfl
    · exact absurd h4.1 (by omega)
    · rfl
  · intro o segs winId now i0 hobs hstd hbase hfinal
    have hobs24 : (24 : Nat) ≤ (windowHourly segs i0).length := hobs
    have hlen2 : 2 ≤ (windowHourly segs i0).length := by omega
    have hth : 0 < windowTotalHours segs i0 :=
      windowTotalHours_pos segs i0 (by omega)
    have h720 : SHARPE_MATURITY_HOURS = 720 := by norm_num [SHARPE_MATURITY_HOURS]
    simp only [statsCore]
    rw [if_neg (not_or.2 ⟨not_le.2 hbase, not_le.2 hfinal⟩),
      if_neg (not_or.2 ⟨not_le.2 hth, not_lt.2 hlen2⟩),
      if_neg (ne_of_gt hstd), if_pos ⟨hobs, hstd⟩]
    simp only [maturityMultiplier, if_neg (not_le.2 hth), h720]
  · intro o segs winId secs now
    cases secs with
    | none => exact Or.inr ⟨0, rfl⟩
    | some s =>
      simp only [computeWindowStats]
      cases hf : segs.findIdx? (fun seg => seg.end_ts ≥ now - s) with
      | none => exact Or.inl rfl
      | some i0 => exact Or.inr ⟨i0, rfl⟩
  · rw [maturityMultiplier, if_neg (by norm_num), SHARPE_MATURITY_HOURS]
    norm_num

/-- Witness for `C5_sharpe_maturity` at a concrete input: one hourly segment
is fewer than 24 observations, so Sharpe is null. -/
theorem C5_sharpe_maturity_witness :
    (statsCore ⟨fun x => x, fun x => x⟩ [⟨0, 3600, 3600, 0, 0, 1⟩] "ALL" 0 0).sharpe_annual
      = none := by
  apply C5_sharpe_maturity.1
  simp [windowHourly, windowQual, segDurHours, MIN_SHARPE_OBS]

lemma statsCore_window (o : NumOracle) (segs : List Segment) (winId : String)
    (now : Int) (i0 : Nat) : (statsCore o segs winId now i0).window = winId := by
  simp only [statsCore]
  split_ifs <;> rfl

lemma computeWindowStats_window (o : NumOracle) (segs : List Segment) (winId : String)
    (secs : Option Int) (now : Int) :
    (computeWindowStats o segs winId secs now).window = winId := by
  cases secs with
  | none => exact statsCore_window o segs winId now 0
  | some s =>
    simp only [computeWindowStats]
    cases hf : segs.findIdx? (fun seg => seg.end_ts ≥ now - s) with
    | none => rfl
    | some i0 => exact statsCore_window o segs winId now i0

/-- **C6** counterexample to the claim as stated: a strategy with zero
segments in total gets no stats rows at all — the pass returns without
upserting the six neutral rows. -/
theorem C6_counterexample :
    recomputeStatsForStrategy ⟨fun x => x, fun x => x⟩ [] 0 = [] ∧
    ¬ (recomputeStatsForStrategy ⟨fun x => x, fun x => x⟩ [] 0).length =
        STAT_WINDOWS.length := by
  constructor
  · rfl
  · intro h
    simp [recomputeStatsForStrategy, STAT_WINDOWS] at h

/-- **C6** (amended).  Whenever a strategy has at least one segment, the pass
recomputes and upserts one row per window — six rows, one per window id, and
a window in which no segment qualifies gets the neutral row
`(totalReturn = 0, maxDrawdown = 0, Sharpe/vol null)`.  A strategy with zero
segments in total is skipped entirely (no rows). -/
theorem C6_stats_rows :
    (∀ (o : NumOracle) (segs : List Segment) (now : Int), segs ≠ [] →
        recomputeStatsForStrategy o segs now =
          STAT_WINDOWS.map (fun w => computeWindowStats o segs w.1 w.2 now) ∧
        (recomputeStatsForStrategy o segs now).length = 6 ∧
        (recomputeStatsForStrategy o segs now).map (·.window) =
          STAT_WINDOWS.map Prod.fst) ∧
    (∀ (o : NumOracle) (segs : List Segment) (winId : String) (s now : Int),
        segs.findIdx? (fun seg => seg.end_ts ≥ now - s) = none →
        computeWindowStats o segs winId (some s) now =
          ⟨winId, now, none, none, none, 0, 0⟩) := by
  constructor
  · intro o segs now hne
    have hnemp : ¬ segs.isEmpty = true := by simp [List.isEmpty_iff, hne]
    refine ⟨?_, ?_, ?_⟩
    · rw [recomputeStatsForStrategy, if_neg hnemp]
    · rw [recomputeStatsForStrategy, if_neg hnemp, List.length_map]
      rfl
    · rw [recomputeStatsForStrategy, if_neg hnemp, List.map_map]
      apply List.map_congr_left
      intro w _
      exact computeWindowStats_window o segs w.1 w.2 now
  · intro o segs winId s now hf
    simp only [computeWindowStats, hf]

/-- Witness for `C6_stats_rows` at concrete inputs: a one-segment strategy
gets six rows, and a window whose cutoff is past that segment gets the
neutral row. -/
theorem C6_stats_rows_witness :
    (recomputeStatsForStrategy ⟨fun x => x, fun x => x⟩ [⟨0, 3600, 3600, 0, 0, 1⟩] 0).length
      = 6 ∧
    computeWindowStats ⟨fun x => x, fun x => x⟩ [⟨0, 3600, 3600, 0, 0, 1⟩] "1W"
        (some 604800) 10000000 =
      ⟨"1W", 10000000, none, none, none, 0, 0⟩ := by
  constructor
  · exact (C6_stats_rows.1 ⟨fun x => x, fun x => x⟩ [⟨0, 3600, 3600, 0, 0, 1⟩] 0
      (by simp)).2.1
  · exact C6_stats_rows.2 ⟨fun x => x, fun x => x⟩ [⟨0, 3600, 3600, 0, 0, 1⟩] "1W"
      604800 10000000 (by decide)

lemma statsCore_total_return (o : NumOracle) (segs : List Segment) (winId : String)
    (now : Int) (i0 : Nat) (hb : 0 < windowBase segs i0) (hf : 0 < windowFinal segs) :
    (statsCore o segs winId now i0).total_return =
      windowFinal segs / windowBase segs i0 - 1 := by
  simp only [statsCore]
  rw [if_neg (not_or.2 ⟨not_le.2 hb, not_le.2 hf⟩)]
  split_ifs <;> rfl

/-- **C7**.  The window base value is the `value_index_end` of the segment
immediately preceding the window slice, or exactly 1 when the slice starts at
the first segment; every non-neutral row's `totalReturn` is
`finalValueIndex/baseValue − 1`; and for the `ALL` window (slice always
starting at the first segment, base 1) `totalReturn` is the last
`value_index_end` (the strategy's `lastValueIndex`) divided by 1.0, minus 1. -/
theorem C7_base_value_total_return :
    (∀ (segs : List Segment) (i0 : Nat), 0 < i0 → ∀ hlt : i0 - 1 < segs.length,
        windowBase segs i0 = (segs.get ⟨i0 - 1, hlt⟩).value_index_end) ∧
    (∀ segs : List Segment, windowBase segs 0 = 1) ∧
    (∀ (o : NumOracle) (segs : List Segment) (winId : String) (now : Int) (i0 : Nat),
        0 < windowBase segs i0 → 0 < windowFinal segs →
        (statsCore o segs winId now i0).total_return =
          windowFinal segs / windowBase segs i0 - 1) ∧
    (∀ (o : NumOracle) (segs : List Segment) (now : Int),
        0 < windowFinal segs →
        (computeWindowStats o segs "ALL" none now).total_return =
          windowFinal segs / 1 - 1) := by
  refine ⟨?_, ?_, statsCore_total_return, ?_⟩
  · intro segs i0 h hlt
    rw [windowBase, if_pos h, valueIdxList,
      List.getD_eq_getElem _ _ (by simpa using hlt)]
    simp [List.getElem_map]
  · intro segs
    rw [windowBase]
    norm_num
  · intro o segs now hf
    have hb : 0 < windowBase segs 0 := by
      rw [windowBase]
      norm_num
    have h1 : windowBase segs 0 = 1 := by
      rw [windowBase]
      norm_num
    rw [show computeWindowStats o segs "ALL" none now = statsCore o segs "ALL" now 0
      from rfl, statsCore_total_return o segs "ALL" now 0 hb hf, h1]

/-- Witness for `C7_base_value_total_return` at concrete inputs. -/
theorem C7_base_value_total_return_witness :
    windowBase [⟨0, 3600, 3600, 0, 0, (3 : ℚ)⟩, ⟨3600, 7200, 3600, 0, 0, 2⟩] 1 = 3 ∧
    (computeWindowStats ⟨fun x => x, fun x => x⟩ [⟨0, 3600, 3600, 0, 0, 2⟩] "ALL"
        none 0).total_return = 2 / 1 - 1 := by
  constructor
  · have h := C7_base_value_total_return.1
      [⟨0, 3600, 3600, 0, 0, (3 : ℚ)⟩, ⟨3600, 7200, 3600, 0, 0, 2⟩] 1 (by norm_num)
      (by norm_num)
    rw [h]
    rfl
  · have h := C7_base_value_total_return.2.2.2 ⟨fun x => x, fun x => x⟩
      [⟨0, 3600, 3600, 0, 0, 2⟩] 0 (by norm_num [windowFinal, valueIdxList])
    rw [h, show windowFinal [⟨0, 3600, 3600, 0, 0, 2⟩] = 2 from by
      norm_num [windowFinal, valueIdxList]]

/-! ### Replay engine: `extendSegmentsForStrategy` (C4) -/

/-- One row of `signals` as read by `getSignalsForStrategyStmt`
(sorted ascending by timestamp). -/
structure Signal where
  asset_symbol : Sym
  direction : Int
  leverage : ℚ
  weight_raw : ℚ
  timestamp : Int
deriving DecidableEq, Repr

/-- One row of `strategy_holdings`. -/
structure Holding where
  asset_symbol : Sym
  value : ℚ
  direction : Int
  leverage : ℚ
  is_usd : Bool
deriving DecidableEq, Repr

/-- The per-strategy persisted state touched by one extension pass: the
`strategies` row's `last_value_index`/`last_segment_end_ts`, the holdings
rows, the segment rows and the position snapshots. -/
structure Store where
  last_value_index : ℚ
  last_segment_end_ts : Option Int
  holdings : List Holding
  segments : List Segment
  snapshots : List (Int × List SnapPos)
deriving DecidableEq, Repr

/-- `INSERT OR IGNORE` into `strategy_segments`: the row is added only when
no row with the same `(start_ts, end_ts)` key exists. -/
def insertSegment (segs : List Segment) (s : Segment) : List Segment :=
  if segs.any (fun t => t.start_ts = s.start_ts ∧ t.end_ts = s.end_ts) then segs
  else segs ++ [s]

/-- Upsert into `strategy_position_snapshots` keyed by `signal_ts`. -/
def upsertSnapshot : List (Int × List SnapPos) → Int → List SnapPos →
    List (Int × List SnapPos)
  | [], ts, ps => [(ts, ps)]
  | x :: xs, ts, ps => if x.1 = ts then (ts, ps) :: xs else x :: upsertSnapshot xs ts ps

/-- The effect of calling `recordPositionSnapshot` on the snapshot store: a
no-op when it declines to write. -/
def recordSnapshotInto (snaps : List (Int × List SnapPos)) (buckets : Buckets)
    (meta : Meta) (ts : Int) : List (Int × List SnapPos) :=
  match recordPositionSnapshot buckets meta with
  | none => snaps
  | some ps => upsertSnapshot snaps ts ps

/-- The pre-loop of the pair step: apply every pending signal with
`timestamp ≤ bound` (signals are sorted), recording one snapshot per distinct
timestamp after its whole group is applied. -/
def applyPre (bound : Int) : List Signal → Buckets → Meta →
    List (Int × List SnapPos) →
    List Signal × Buckets × Meta × List (Int × List SnapPos)
  | [], b, m, snaps => ([], b, m, snaps)
  | s :: rest, b, m, snaps =>
    if s.timestamp ≤ bound then
      let r := applySignalTargetPct b m
        ⟨s.asset_symbol, s.direction, s.leverage, s.weight_raw⟩
      match rest with
      | [] => ([], r.1, r.2, recordSnapshotInto snaps r.1 r.2 s.timestamp)
      | s2 :: rest2 =>
        if s2.timestamp = s.timestamp then applyPre bound (s2 :: rest2) r.1 r.2 snaps
        else applyPre bound (s2 :: rest2) r.1 r.2
          (recordSnapshotInto snaps r.1 r.2 s.timestamp)
    else (s :: rest, b, m, snaps)

/-- The intra-hour loop: for each pending signal with `timestamp ≤ tEnd`,
drift once from the cursor to each distinct signal timestamp, apply the whole
group, snapshot, and advance the cursor. -/
def intraHour (prices : Sym → Option PriceSeries) (tEnd : Int) :
    List Signal → Buckets → Meta → List (Int × List SnapPos) → Int →
    List Signal × Buckets × Meta × List (Int × List SnapPos) × Int
  | [], b, m, snaps, cursor => ([], b, m, snaps, cursor)
  | s :: rest, b, m, snaps, cursor =>
    if s.timestamp ≤ tEnd then
      let b0 := if cursor < s.timestamp then drift prices m b cursor s.timestamp else b
      let cursor1 := if cursor < s.timestamp then s.timestamp else cursor
      let r := applySignalTargetPct b0 m
        ⟨s.asset_symbol, s.direction, s.leverage, s.weight_raw⟩
      match rest with
      | [] => ([], r.1, r.2, recordSnapshotInto snaps r.1 r.2 s.timestamp, cursor1)
      | s2 :: rest2 =>
        if s2.timestamp = s.timestamp then
          intraHour prices tEnd (s2 :: rest2) r.1 r.2 snaps cursor1
        else
          intraHour prices tEnd (s2 :: rest2) r.1 r.2
            (recordSnapshotInto snaps r.1 r.2 s.timestamp) cursor1
    else (s :: rest, b, m, snaps, cursor)

/-- The walking state of the per-pair loop, including the strategy-row
watermark columns written by `updateStrategyAfterSegmentsStmt`. -/
structure LoopSt where
  sigs : List Signal
  buckets : Buckets
  meta : Meta
  valueIndex : ℚ
  lviW : ℚ
  lsetW : Option Int
  segments : List Segment
  snapshots : List (Int × List SnapPos)
deriving Repr

/-- One iteration of the hourly-pair loop `[tStart, tEnd]`. -/
def stepPair (prices : Sym → Option PriceSeries) (firstSignalTs : Int)
    (tStart tEnd : Int) (st : LoopSt) : LoopSt :=
  if tEnd ≤ tStart then st
  else if tEnd ≤ firstSignalTs then st
  else
    let durationSec := tEnd - tStart
    let durationHours : ℚ := (durationSec : ℚ) / 3600
    let a := applyPre tStart st.sigs st.buckets st.meta st.snapshots
    let equityStart := sumBuckets a.2.1
    if equityStart ≤ 0 then
      { st with
        sigs := a.1,
        buckets := a.2.1,
        meta := a.2.2.1,
        snapshots := a.2.2.2,
        segments := insertSegment st.segments
          ⟨tStart, tEnd, durationSec, 0, 0, st.valueIndex⟩,
        lviW := st.valueIndex,
        lsetW := some tEnd }
    else
      let r := intraHour prices tEnd a.1 a.2.1 a.2.2.1 a.2.2.2 tStart
      let b3 := drift prices r.2.2.1 r.2.1 r.2.2.2.2 tEnd
      let equityEnd := sumBuckets b3
      let rawReturn := equityEnd / equityStart - 1
      let newVI := st.valueIndex * (1 + rawReturn)
      let hourlyEquiv := if 0 < durationHours then rawReturn / durationHours else 0
      { sigs := r.1, buckets := b3, meta := r.2.2.1, valueIndex := newVI,
        lviW := newVI, lsetW := some tEnd,
        segments := insertSegment st.segments
          ⟨tStart, tEnd, durationSec, rawReturn, hourlyEquiv, newVI⟩,
        snapshots := r.2.2.2.1 }

/-- The resume fast-forward: consume signals with `timestamp ≤ lastSegEnd`,
rebuilding only the meta parameters (zero target drops the asset's meta). -/
def fastForward (lastSegEnd : Int) : List Signal → Meta → List Signal × Meta
  | [], m => ([], m)
  | s :: rest, m =>
    if s.timestamp ≤ lastSegEnd then
      let m1 :=
        if isSupportedAsset s.asset_symbol then
          let asset := upper s.asset_symbol
          let usd := isUsdAsset asset
          if clampPct s.weight_raw ≤ 0 then eraseKey m asset
          else setKey m asset
            ⟨if usd then 0 else replayDirection s.direction,
              if usd then 1 else clampLev s.leverage, usd⟩
        else m
      fastForward lastSegEnd rest m1
    else (s :: rest, m)

/-- Seed for a brand-new strategy (unit USD cash bucket), or the resumed
holdings rows. -/
def initBucketsMeta (store : Store) : Buckets × Meta :=
  match store.last_segment_end_ts with
  | none => ([("USD", 1)], [("USD", ⟨0, 1, true⟩)])
  | some _ =>
    (store.holdings.map (fun h => (upper h.asset_symbol, h.value)),
     store.holdings.map (fun h =>
       (upper h.asset_symbol, ⟨h.direction, h.leverage, h.is_usd⟩)))

/-- The start-index search: first replay starts at the hour boundary
containing the first signal (index 0 as fallback when the grid has already
moved past it); a resume starts at the first boundary `≥ last_segment_end_ts`.
Both loops run `i` up to `length - 2` as in the source. -/
def findStartIdx (grid : List Int) (firstSignalTs : Int) (lastSegEnd : Option Int) :
    Option Nat :=
  match lastSegEnd with
  | none =>
    match (List.range (grid.length - 1)).find? (fun i =>
        decide (grid.getD i 0 ≤ firstSignalTs ∧ firstSignalTs < grid.getD (i+1) 0)) with
    | some i => some i
    | none => if 2 ≤ grid.length then some 0 else none
  | some w => (List.range (grid.length - 1)).find? (fun i => decide (w ≤ grid.getD i 0))

/-- The final holdings persistence (delete + reinsert of every positive
bucket). -/
def persistHoldings (b : Buckets) (m : Meta) : List Holding :=
  (b.filter (fun q => decide (0 < q.2))).map (fun q =>
    let mm := (lookupKey m (upper q.1)).getD
      ⟨if isUsdAsset q.1 then 0 else 1, 1, isUsdAsset q.1⟩
    ⟨upper q.1, q.2, mm.direction, mm.leverage, mm.isUsd⟩)

/-- `extendSegmentsForStrategy`: one extension pass for one strategy.  All
early returns happen before any mutation, mirroring the source where the
transaction only wraps the pair loop and the holdings replacement. -/
def extendSegmentsForStrategy (signals : List Signal) (grid : List Int)
    (prices : Sym → Option PriceSeries) (firstSignalTs : Int) (store : Store) :
    Store :=
  if signals.isEmpty then store
  else if (match grid.getLast? with
      | some maxTs => decide (maxTs ≤ firstSignalTs)
      | none => false) then store
  else
    match findStartIdx grid firstSignalTs store.last_segment_end_ts with
    | none => store
    | some startIdx =>
      if grid.length - 1 ≤ startIdx then store
      else
        let bm := initBucketsMeta store
        let sm :=
          match store.last_segment_end_ts with
          | some w => fastForward w signals bm.2
          | none => (signals, bm.2)
        let init : LoopSt :=
          { sigs := sm.1, buckets := bm.1, meta := sm.2,
            valueIndex := if store.last_value_index = 0 then 1
              else store.last_value_index,
            lviW := store.last_value_index, lsetW := store.last_segment_end_ts,
            segments := store.segments, snapshots := store.snapshots }
        let final := (List.range' startIdx (grid.length - 1 - startIdx)).foldl
          (fun st k => stepPair prices firstSignalTs (grid.getD k 0)
            (grid.getD (k+1) 0) st) init
        { last_value_index := final.lviW,
          last_segment_end_ts := final.lsetW,
          holdings := persistHoldings final.buckets final.meta,
          segments := final.segments,
          snapshots := final.snapshots }

lemma pairwise_lt_getD {l : List Int} (h : List.Pairwise (· < ·) l) :
    ∀ i j, i < j → j < l.length → l.getD i 0 < l.getD j 0 := by
  intro i j hij hj
  have hi : i < l.length := lt_trans hij hj
  rw [List.getD_eq_getElem l 0 hi, List.getD_eq_getElem l 0 hj]
  exact List.pairwise_iff_getElem.1 h i j hi hj hij

lemma getLast?_eq_getD {l : List Int} (h : l ≠ []) :
    l.getLast? = some (l.getD (l.length - 1) 0) := by
  have hlen : 0 < l.length := List.length_pos.2 h
  rw [List.getLast?_eq_getElem?, List.getElem?_eq_getElem (by omega),
    List.getD_eq_getElem l 0 (by omega)]

lemma insertSegment_front (l : List Segment) (s : Segment) :
    l <+: insertSegment l s := by
  unfold insertSegment
  split_ifs
  · exact List.prefix_refl l
  · exact ⟨[s], rfl⟩

lemma insertSegment_mem {l : List Segment} {s x : Segment}
    (h : x ∈ insertSegment l s) : x ∈ l ∨ x = s := by
  unfold insertSegment at h
  split_ifs at h
  · exact Or.inl h
  · rcases List.mem_append.1 h with h1 | h1
    · exact Or.inl h1
    · exact Or.inr (List.mem_singleton.1 h1)

lemma stepPair_lsetW (prices : Sym → Option PriceSeries) (fst tS tE : Int)
    (st : LoopSt) (h1 : tS < tE) (h2 : fst < tE) :
    (stepPair prices fst tS tE st).lsetW = some tE := by
  simp only [stepPair]
  rw [if_neg (not_le.2 h1), if_neg (not_le.2 h2)]
  split_ifs <;> rfl

lemma stepPair_segments_front (prices : Sym → Option PriceSeries) (fst tS tE : Int)
    (st : LoopSt) : st.segments <+: (stepPair prices fst tS tE st).segments := by
  simp only [stepPair]
  split_ifs <;> first
    | exact List.prefix_refl _
    | exact insertSegment_front _ _

lemma stepPair_segments_cases (prices : Sym → Option PriceSeries) (fst tS tE : Int)
    (st : LoopSt) {seg : Segment} (h : seg ∈ (stepPair prices fst tS tE st).segments) :
    seg ∈ st.segments ∨ (seg.start_ts = tS ∧ seg.end_ts = tE) := by
  simp only [stepPair] at h
  split_ifs at h <;> first
    | exact Or.inl h
    | exact (insertSegment_mem h).imp id (fun h1 => by rw [h1]; exact ⟨rfl, rfl⟩)

lemma foldl_stepPair_front (prices : Sym → Option PriceSeries) (fst : Int)
    (grid : List Int) (l : List Nat) (st : LoopSt) :
    st.segments <+: (l.foldl (fun s k =>
      stepPair prices fst (grid.getD k 0) (grid.getD (k+1) 0) s) st).segments := by
  induction l generalizing st with
  | nil => exact List.prefix_refl _
  | cons x xs ih =>
    exact (stepPair_segments_front prices fst (grid.getD x 0) (grid.getD (x+1) 0)
      st).trans (ih _)

lemma foldl_stepPair_cases (prices : Sym → Option PriceSeries) (fst : Int)
    (grid : List Int) (l : List Nat) (st : LoopSt) {seg : Segment}
    (h : seg ∈ (l.foldl (fun s k =>
      stepPair prices fst (grid.getD k 0) (grid.getD (k+1) 0) s) st).segments) :
    seg ∈ st.segments ∨
      ∃ k ∈ l, seg.start_ts = grid.getD k 0 ∧ seg.end_ts = grid.getD (k+1) 0 := by
  induction l generalizing st with
  | nil => exact Or.inl h
  | cons x xs ih =>
    rcases ih _ h with h1 | ⟨k, hk, hse⟩
    · rcases stepPair_segments_cases prices fst _ _ st h1 with h2 | h2
      · exact Or.inl h2
      · exact Or.inr ⟨x, List.mem_cons_self x xs, h2⟩
    · exact Or.inr ⟨k, List.mem_cons_of_mem x hk, hse⟩

lemma foldl_stepPair_last_lsetW (prices : Sym → Option PriceSeries) (fst : Int)
    (grid : List Int) (startIdx n : Nat) (st : LoopSt) (hn : 0 < n)
    (h1 : grid.getD (startIdx + (n - 1)) 0 < grid.getD (startIdx + (n - 1) + 1) 0)
    (h2 : fst < grid.getD (startIdx + (n - 1) + 1) 0) :
    ((List.range' startIdx n).foldl (fun s k =>
        stepPair prices fst (grid.getD k 0) (grid.getD (k+1) 0) s) st).lsetW =
      some (grid.getD (startIdx + (n - 1) + 1) 0) := by
  have hsplit : List.range' startIdx n =
      List.range' startIdx (n - 1) ++ [startIdx + (n - 1)] := by
    conv_lhs => rw [show n = (n - 1) + 1 by omega]
    have := @List.range'_concat 1 startIdx (n - 1)
    rw [one_mul] at this
    exact this
  rw [hsplit, List.foldl_append, List.foldl_cons, List.foldl_nil]
  exact stepPair_lsetW prices fst _ _ _ h1 h2

lemma extend_eq_of_findStartIdx_none (signals : List Signal) (grid : List Int)
    (prices : Sym → Option PriceSeries) (fst : Int) (store : Store)
    (hf : findStartIdx grid fst store.last_segment_end_ts = none) :
    extendSegmentsForStrategy signals grid prices fst store = store := by
  simp only [extendSegmentsForStrategy]
  split_ifs with h1 h2 <;> first | rfl | rw [hf]

lemma extend_eq_of_lset_max (signals : List Signal) (grid : List Int)
    (prices : Sym → Option PriceSeries) (fst : Int) (store : Store)
    (hsort : List.Pairwise (· < ·) grid) (hlen : 2 ≤ grid.length)
    (hw : store.last_segment_end_ts = some (grid.getD (grid.length - 1) 0)) :
    extendSegmentsForStrategy signals grid prices fst store = store := by
  apply extend_eq_of_findStartIdx_none
  rw [hw]
  simp only [findStartIdx]
  apply List.find?_eq_none.2
  intro i hi
  rw [List.mem_range] at hi
  simp only [decide_eq_true_eq]
  exact not_le.2 (pairwise_lt_getD hsort i (grid.length - 1) (by omega) (by omega))

lemma extend_self_or_watermark (signals : List Signal) (grid : List Int)
    (prices : Sym → Option PriceSeries) (fst : Int) (store : Store)
    (hsort : List.Pairwise (· < ·) grid) :
    extendSegmentsForStrategy signals grid prices fst store = store ∨
    (2 ≤ grid.length ∧
      (extendSegmentsForStrategy signals grid prices fst store).last_segment_end_ts =
        some (grid.getD (grid.length - 1) 0)) := by
  simp only [extendSegmentsForStrategy]
  by_cases h1 : signals.isEmpty = true
  · rw [if_pos h1]
    exact Or.inl rfl
  · rw [if_neg h1]
    by_cases h2 : (match grid.getLast? with
        | some maxTs => decide (maxTs ≤ fst)
        | none => false) = true
    · rw [if_pos h2]
      exact Or.inl rfl
    · rw [if_neg h2]
      cases hf : findStartIdx grid fst store.last_segment_end_ts with
      | none => exact Or.inl rfl
      | some startIdx =>
        dsimp only
        by_cases hlen : grid.length - 1 ≤ startIdx
        · rw [if_pos hlen]
          exact Or.inl rfl
        · rw [if_neg hlen]
          have hlen2 : 2 ≤ grid.length := by omega
          refine Or.inr ⟨hlen2, ?_⟩
          have hfstlt : fst < grid.getD (grid.length - 1) 0 := by
            rw [getLast?_eq_getD (by
              intro hc
              rw [hc] at hlen2
              simp at hlen2)] at h2
            simp only [decide_eq_true_eq] at h2
            exact not_le.1 h2
          have key : ∀ st : LoopSt,
              ((List.range' startIdx (grid.length - 1 - startIdx)).foldl
                (fun s k => stepPair prices fst (grid.getD k 0) (grid.getD (k+1) 0) s)
                st).lsetW = some (grid.getD (grid.length - 1) 0) := by
            intro st
            have harith : startIdx + (grid.length - 1 - startIdx - 1) + 1 =
                grid.length - 1 := by omega
            have h := foldl_stepPair_last_lsetW prices fst grid startIdx
              (grid.length - 1 - startIdx) st (by omega)
              (by
                rw [harith]
                exact pairwise_lt_getD hsort _ _ (by omega) (by omega))
              (by rw [harith]; exact hfstlt)
            rw [harith] at h
            exact h
          exact key _

/-- **C4**.  Re-running the extension pass with the same signals, hourly grid
and prices is a no-op: zero new segments, and the persisted holdings set and
the `lastValueIndex`/`lastSegmentEndTs` watermark unchanged.  Any pass only
ever appends to the segment list (an existing row is never mutated or
deleted), and a resumed pass (watermark `w` present) only appends segments
with `start_ts ≥ w` and `end_ts > w` — strictly after the previous
watermark. -/
theorem C4_idempotent_replay :
    (∀ (signals : List Signal) (grid : List Int) (prices : Sym → Option PriceSeries)
        (fst : Int) (store : Store),
        List.Pairwise (· < ·) grid →
        extendSegmentsForStrategy signals grid prices fst
            (extendSegmentsForStrategy signals grid prices fst store) =
          extendSegmentsForStrategy signals grid prices fst store) ∧
    (∀ (signals : List Signal) (grid : List Int) (prices : Sym → Option PriceSeries)
        (fst : Int) (store : Store),
        store.segments <+:
          (extendSegmentsForStrategy signals grid prices fst store).segments) ∧
    (∀ (signals : List Signal) (grid : List Int) (prices : Sym → Option PriceSeries)
        (fst : Int) (store : Store) (w : Int),
        List.Pairwise (· < ·) grid →
        store.last_segment_end_ts = some w →
        ∀ seg ∈ (extendSegmentsForStrategy signals grid prices fst store).segments,
          seg ∈ store.segments ∨ (w ≤ seg.start_ts ∧ w < seg.end_ts)) := by
  refine ⟨?_, ?_, ?_⟩
  · intro signals grid prices fst store hsort
    rcases extend_self_or_watermark signals grid prices fst store hsort with h | ⟨hl, hw⟩
    · rw [h, h]
    · exact extend_eq_of_lset_max signals grid prices fst _ hsort hl hw
  · intro signals grid prices fst store
    simp only [extendSegmentsForStrategy]
    by_cases h1 : signals.isEmpty = true
    · rw [if_pos h1]
    · rw [if_neg h1]
      by_cases h2 : (match grid.getLast? with
          | some maxTs => decide (maxTs ≤ fst)
          | none => false) = true
      · rw [if_pos h2]
      · rw [if_neg h2]
        cases hf : findStartIdx grid fst store.last_segment_end_ts with
        | none => exact List.prefix_refl _
        | some startIdx =>
          dsimp only
          by_cases hlen : grid.length - 1 ≤ startIdx
          · rw [if_pos hlen]
          · rw [if_neg hlen]
            dsimp only
            have hp := foldl_stepPair_front prices fst grid
              (List.range' startIdx (grid.length - 1 - startIdx))
              { sigs :=
                  (match store.last_segment_end_ts with
                    | some w => fastForward w signals (initBucketsMeta store).2
                    | none => (signals, (initBucketsMeta store).2)).1,
                buckets := (initBucketsMeta store).1,
                meta :=
                  (match store.last_segment_end_ts with
                    | some w => fastForward w signals (initBucketsMeta store).2
                    | none => (signals, (initBucketsMeta store).2)).2,
                valueIndex := if store.last_value_index = 0 then 1
                  else store.last_value_index,
                lviW := store.last_value_index, lsetW := store.last_segment_end_ts,
                segments := store.segments, snapshots := store.snapshots }
            exact hp
  · intro signals grid prices fst store w hsort hlset seg hseg
    revert hseg
    simp only [extendSegmentsForStrategy]
    by_cases h1 : signals.isEmpty = true
    · rw [if_pos h1]
      exact fun h => Or.inl h
    · rw [if_neg h1]
      by_cases h2 : (match grid.getLast? with
          | some maxTs => decide (maxTs ≤ fst)
          | none => false) = true
      · rw [if_pos h2]
        exact fun h => Or.inl h
      · rw [if_neg h2]
        cases hf : findStartIdx grid fst store.last_segment_end_ts with
        | none => exact fun h => Or.inl h
        | some startIdx =>
          dsimp only
          by_cases hlen : grid.length - 1 ≤ startIdx
          · rw [if_pos hlen]
            exact fun h => Or.inl h
          · rw [if_neg hlen]
            dsimp only
            intro hseg
            rcases foldl_stepPair_cases prices fst grid _ _ hseg with h | ⟨k, hk, hs, he⟩
            · exact Or.inl h
            · rw [List.mem_range'_1] at hk
              have hwst : w ≤ grid.getD startIdx 0 := by
                rw [hlset] at hf
                simp only [findStartIdx] at hf
                have := List.find?_some hf
                simpa using this
              have hks : grid.getD startIdx 0 ≤ grid.getD k 0 := by
                rcases Nat.eq_or_lt_of_le hk.1 with heq | hlt
                · rw [heq]
                · exact le_of_lt (pairwise_lt_getD hsort _ _ hlt (by omega))
              have hke : grid.getD k 0 < grid.getD (k + 1) 0 :=
                pairwise_lt_getD hsort _ _ (by omega) (by omega)
              refine Or.inr ⟨?_, ?_⟩
              · rw [hs]
                exact le_trans hwst hks
              · rw [he]
                exact lt_of_le_of_lt (le_trans hwst hks) hke

/-- Witness for `C4_idempotent_replay` at a concrete input: one signal inside
the only hourly pair of the grid. -/
theorem C4_idempotent_replay_witness :
    extendSegmentsForStrategy [⟨"BTC", 0, 1, 50, 1800⟩] [0, 3600] (fun _ => none) 1800
        (extendSegmentsForStrategy [⟨"BTC", 0, 1, 50, 1800⟩] [0, 3600] (fun _ => none)
          1800 ⟨1, none, [], [], []⟩) =
      extendSegmentsForStrategy [⟨"BTC", 0, 1, 50, 1800⟩] [0, 3600] (fun _ => none) 1800
        ⟨1, none, [], [], []⟩ ∧
    (⟨1, none, [], [], []⟩ : Store).segments <+:
      (extendSegmentsForStrategy [⟨"BTC", 0, 1, 50, 1800⟩] [0, 3600] (fun _ => none) 1800
        ⟨1, none, [], [], []⟩).segments := by
  constructor
  · exact C4_idempotent_replay.1 [⟨"BTC", 0, 1, 50, 1800⟩] [0, 3600] (fun _ => none)
      1800 ⟨1, none, [], [], []⟩ (by decide)
  · exact C4_idempotent_replay.2.1 [⟨"BTC", 0, 1, 50, 1800⟩] [0, 3600] (fun _ => none)
      1800 ⟨1, none, [], [], []⟩

end ChainSignals
